import Mathlib

/-!
Verification of the `file-dedup` duplicate-file finder.

The development shallowly embeds the Rust sources:
* the wildcard matcher `matches_filter` / `matches_filters`
  (src/dedup.rs lines 106-159, identical copy in src/file_iter.rs),
* the breadth-first directory walkers `scan_directory` (src/dedup.rs)
  and `FileIter::next` (src/file_iter.rs),
* the size-bucketing stage of `find_duplicates` (src/dedup.rs), and
* the content-hash regrouping stage described by the specification
  (the hash-enabled aggregator is referenced by src/main.rs via
  `only_compare_file_size` but its body is not among the sources).

File names and patterns are `List Char` (Rust iterates `str::chars`);
file bytes are `Nat` values; the 64-bit hash accumulator wraps mod 2^64.
-/

namespace FileDedup

/-! ### Character comparison (Rust `char::eq_ignore_ascii_case`) -/

/-- ASCII lowercasing of a character, as Rust `char::to_ascii_lowercase`:
uppercase ASCII letters map to lowercase, all other characters are kept. -/
def asciiLower (c : Char) : Char :=
  if 'A' ≤ c ∧ c ≤ 'Z' then Char.ofNat (c.toNat + 32) else c

/-- The `chars_eq` closure of `matches_filter`: plain equality when
`case_sensitive`, otherwise `eq_ignore_ascii_case`. -/
def charsEq (caseSensitive : Bool) (a b : Char) : Bool :=
  if caseSensitive then a == b else asciiLower a == asciiLower b

/-- The first branch condition of the matcher loop:
`filter_char == '?' || chars_eq(filter_char, file_name_char)`. -/
def pointRel (cs : Bool) (p c : Char) : Bool :=
  p == '?' || charsEq cs p c

/-! ### The greedy-with-backtrack matcher loop (src/dedup.rs 121-148) -/

/-- State-passing embedding of the `while let Some(file_name_char) = ...`
loop of `matches_filter`.  `filt` is `filter_iter`, `name` is
`file_name_iter`, `starF` is `star_filter_iter` (pointing AT the last
`'*'`), `starN` is `star_file_name_iter`.  After the loop the remaining
filter must be all `'*'`. -/
def matchLoop (cs : Bool) (filt name : List Char)
    (starF : Option (List Char)) (starN : List Char) : Bool :=
  match name with
  | [] => filt.all (fun f => f == '*')
  | c :: nt =>
    match filt with
    | f :: ft =>
      if pointRel cs f c then
        matchLoop cs ft nt starF starN
      else if f == '*' then
        matchLoop cs ft (c :: nt) (some (f :: ft)) (c :: nt)
      else
        match starF with
        | some sf => matchLoop cs sf starN.tail (some sf) starN.tail
        | none => false
    | [] =>
      match starF with
      | some sf => matchLoop cs sf starN.tail (some sf) starN.tail
      | none => false
termination_by (max starN.length name.length, name.length, filt.length)
decreasing_by
  · rcases Nat.lt_or_ge (max starN.length nt.length) (max starN.length (nt.length + 1)) with h | h
    · exact Prod.Lex.left _ _ h
    · have : max starN.length nt.length = max starN.length (nt.length + 1) := by omega
      rw [this]; exact Prod.Lex.right _ (Prod.Lex.left _ _ (Nat.lt_succ_self _))
  · rcases Nat.lt_or_ge (max (c :: nt).length (c :: nt).length)
      (max starN.length (c :: nt).length) with h | h
    · exact Prod.Lex.left _ _ h
    · have : max (c :: nt).length (c :: nt).length = max starN.length (c :: nt).length := by
        simp at h ⊢; omega
      rw [this]
      exact Prod.Lex.right _ (Prod.Lex.right _ (by simp [Nat.lt_succ_self]))
  · apply Prod.Lex.left
    simp [List.length_tail]
    omega
  · apply Prod.Lex.left
    simp [List.length_tail]
    omega

/-- `matches_filter` (src/dedup.rs 106-149 = src/file_iter.rs 96-139):
empty filters and the literal `"*"` match immediately, otherwise the
backtracking loop runs with no checkpoint and the full name saved. -/
def matches_filter (fileName filter : List Char) (caseSensitive : Bool) : Bool :=
  if filter = [] ∨ filter = ['*'] then true
  else matchLoop caseSensitive filter fileName none fileName

/-- `matches_filters` (src/dedup.rs 151-159): an empty filter list or one
containing the literal `"*"` matches everything, otherwise some filter
must match. -/
def matches_filters (fileName : List Char) (filters : List (List Char))
    (caseSensitive : Bool) : Bool :=
  if filters = [] ∨ filters.contains ['*'] then true
  else filters.any (fun filter => matches_filter fileName filter caseSensitive)

/-- Fuel-indexed mirror of `matchLoop`: each recursive call consumes one
unit of fuel, `none` means the fuel ran out.  Structural in the fuel, so
the kernel can evaluate it on concrete inputs. -/
def matchLoopF (cs : Bool) : Nat → List Char → List Char →
    Option (List Char) → List Char → Option Bool
  | 0, _, _, _, _ => none
  | fuel + 1, filt, name, starF, starN =>
    match name with
    | [] => some (filt.all (fun f => f == '*'))
    | c :: nt =>
      match filt with
      | f :: ft =>
        if pointRel cs f c then
          matchLoopF cs fuel ft nt starF starN
        else if f == '*' then
          matchLoopF cs fuel ft (c :: nt) (some (f :: ft)) (c :: nt)
        else
          match starF with
          | some sf => matchLoopF cs fuel sf starN.tail (some sf) starN.tail
          | none => some false
      | [] =>
        match starF with
        | some sf => matchLoopF cs fuel sf starN.tail (some sf) starN.tail
        | none => some false

/-- A fuel-computed answer agrees with the total loop. -/
theorem matchLoopF_sound {cs : Bool} :
    ∀ {fuel : Nat} {filt name : List Char} {starF : Option (List Char)}
      {starN : List Char} {b : Bool},
      matchLoopF cs fuel filt name starF starN = some b →
      matchLoop cs filt name starF starN = b := by
  intro fuel
  induction fuel with
  | zero => intro _ _ _ _ _ h; simp [matchLoopF] at h
  | succ n ih =>
    intro filt name starF starN b h
    rw [matchLoop.eq_def]
    match name with
    | [] =>
      simp [matchLoopF] at h
      simpa using h
    | c :: nt =>
      match filt with
      | f :: ft =>
        simp only [matchLoopF] at h
        by_cases h1 : pointRel cs f c = true
        · simp only [h1, if_true] at h ⊢
          exact ih h
        · simp only [h1] at h ⊢
          by_cases h2 : (f == '*') = true
          · simp only [h2, if_true, if_false, Bool.false_eq_true] at h ⊢
            exact ih h
          · simp only [h2, Bool.false_eq_true, if_false] at h ⊢
            match starF with
            | some sf => exact ih h
            | none => simpa using h
      | [] =>
        simp only [matchLoopF] at h
        match starF with
        | some sf => exact ih h
        | none => simpa using h

/-- Evaluation helper: a fuel run decides `matches_filter` whenever the
filter is not one of the two shortcut cases. -/
theorem matches_filter_eval {name p : List Char} {cs b : Bool} (fuel : Nat)
    (hshort : ¬(p = [] ∨ p = ['*']))
    (h : matchLoopF cs fuel p name none name = some b) :
    matches_filter name p cs = b := by
  rw [matches_filter, if_neg hshort]
  exact matchLoopF_sound h

/-! ### Declarative wildcard semantics (spec section 4.1 / 6)

`?` matches exactly one character, `*` matches zero or more characters,
any other pattern character matches one name character up to
case-sensitivity, the whole name must be consumed (anchored at both
ends), and there is no escaping: `*` and `?` are always wildcards. -/

/-- Declarative reading of the spec's wildcard syntax. -/
inductive GlobMatches (cs : Bool) : List Char → List Char → Prop where
  /-- The empty pattern matches the empty name (anchoring). -/
  | nil : GlobMatches cs [] []
  /-- `?` matches exactly one arbitrary character. -/
  | one (c : Char) {π n : List Char} :
      GlobMatches cs π n → GlobMatches cs ('?' :: π) (c :: n)
  /-- An ordinary pattern character matches one equal (up to case) character. -/
  | lit {p c : Char} {π n : List Char} : p ≠ '*' → p ≠ '?' →
      charsEq cs p c = true → GlobMatches cs π n →
      GlobMatches cs (p :: π) (c :: n)
  /-- `*` may match zero characters. -/
  | starSkip {π n : List Char} :
      GlobMatches cs π n → GlobMatches cs ('*' :: π) n
  /-- `*` may absorb one more character. -/
  | starTake (c : Char) {π n : List Char} :
      GlobMatches cs ('*' :: π) n → GlobMatches cs ('*' :: π) (c :: n)

/-- Executable form of the declarative semantics: a `*` matches when the
rest of the pattern matches some suffix of the name.  Structural in the
pattern, so the kernel can evaluate it. -/
def globB (cs : Bool) : List Char → List Char → Bool
  | [], n => n.isEmpty
  | p :: π, n =>
    if p = '*' then n.tails.any (fun s => globB cs π s)
    else
      match n with
      | [] => false
      | c :: n' => pointRel cs p c && globB cs π n'

/-- A pattern matches the empty name exactly when it is all stars. -/
theorem globB_nil_iff {cs : Bool} :
    ∀ π : List Char, globB cs π [] = true ↔ π.all (fun f => f == '*') = true := by
  intro π
  induction π with
  | nil => simp [globB]
  | cons p π ih =>
    by_cases hp : p = '*'
    · subst hp
      simpa [globB] using ih
    · simp [globB, hp, List.all_cons]

/-- Star elimination: `*` followed by `π` matches `n` exactly when `π`
matches some suffix of `n`. -/
theorem globB_star_iff {cs : Bool} {π n : List Char} :
    globB cs ('*' :: π) n = true ↔ ∃ w, w <:+ n ∧ globB cs π w = true := by
  simp [globB, List.any_eq_true, List.mem_tails]

/-- Any star-led pattern matching a suffix matches the whole list. -/
theorem globB_star_of_suffix {cs : Bool} {π w n : List Char}
    (h : globB cs ('*' :: π) w = true) (hw : w <:+ n) :
    globB cs ('*' :: π) n = true := by
  rcases globB_star_iff.mp h with ⟨u, hu, hmatch⟩
  exact globB_star_iff.mpr ⟨u, hu.trans hw, hmatch⟩

/-- The number of non-`*` characters of a pattern. -/
def nonStarCount : List Char → Nat
  | [] => 0
  | p :: π => (if p = '*' then 0 else 1) + nonStarCount π

/-- A match consumes at least one name character per non-`*` pattern
character. -/
theorem globB_nonStar_le {cs : Bool} :
    ∀ {π n : List Char}, globB cs π n = true → nonStarCount π ≤ n.length := by
  intro π
  induction π with
  | nil => intro n _; simp [nonStarCount]
  | cons p π ih =>
    intro n h
    by_cases hp : p = '*'
    · subst hp
      rcases globB_star_iff.mp h with ⟨w, hw, hmatch⟩
      have := ih hmatch
      have hlen := hw.length_le
      simp [nonStarCount]
      omega
    · match n with
      | [] => simp [globB, hp] at h
      | c :: n' =>
        simp only [globB, if_neg hp, Bool.and_eq_true] at h
        have := ih h.2
        simp [nonStarCount, hp]
        omega

/-- A star-free pattern segment consumes exactly its own length. -/
theorem globB_append_of_starFree {cs : Bool} :
    ∀ {q π n : List Char}, '*' ∉ q → globB cs (q ++ π) n = true →
      ∃ w, w <:+ n ∧ w.length + q.length = n.length ∧ globB cs π w = true := by
  intro q
  induction q with
  | nil => intro π n _ h; exact ⟨n, List.suffix_rfl, by simp, h⟩
  | cons p q ih =>
    intro π n hq h
    have hp : p ≠ '*' := fun hc => hq (hc ▸ List.mem_cons_self p q)
    match n with
    | [] => simp [globB, hp] at h
    | c :: n' =>
      simp only [List.cons_append, globB, if_neg hp, Bool.and_eq_true] at h
      rcases ih (fun hm => hq (List.mem_cons_of_mem _ hm)) h.2 with ⟨w, hw, hlen, hm⟩
      exact ⟨w, hw.trans (List.suffix_cons c n'), by simp; omega, hm⟩

/-- A suffix of `a ++ b` no longer than `b` is a suffix of `b`. -/
theorem suffix_of_append_short {α : Type} {w : List α} (a b : List α)
    (hw : w <:+ a ++ b) (hlen : w.length ≤ b.length) : w <:+ b := by
  induction a with
  | nil => simpa using hw
  | cons x a ih =>
    rcases (List.suffix_cons_iff).mp hw with h | h
    · have := congrArg List.length h
      simp at this
      omega
    · exact ih h

/-- The inductive semantics implies the executable one. -/
theorem GlobMatches.toGlobB {cs : Bool} {π n : List Char}
    (h : GlobMatches cs π n) : globB cs π n = true := by
  induction h with
  | nil => simp [globB]
  | one c _ ih =>
    simp only [globB, if_neg (by decide : ¬('?' : Char) = '*')]
    simp [pointRel, ih]
  | lit hp hq hc _ ih =>
    simp only [globB, if_neg hp]
    simp [pointRel, hc, ih]
  | starSkip _ ih => exact globB_star_iff.mpr ⟨_, List.suffix_rfl, ih⟩
  | starTake c h ih => exact globB_star_of_suffix ih (List.suffix_cons c _)

/-- The executable semantics implies the inductive one. -/
theorem GlobMatches.ofGlobB {cs : Bool} :
    ∀ {π n : List Char}, globB cs π n = true → GlobMatches cs π n := by
  intro π
  induction π with
  | nil =>
    intro n h
    simp only [globB, List.isEmpty_iff] at h
    subst h; exact GlobMatches.nil
  | cons p π ih =>
    intro n h
    by_cases hp : p = '*'
    · subst hp
      rcases globB_star_iff.mp h with ⟨w, hw, hmatch⟩
      have base : GlobMatches cs ('*' :: π) w := GlobMatches.starSkip (ih hmatch)
      clear h hmatch
      induction n with
      | nil =>
        have : w = [] := List.eq_nil_of_suffix_nil hw
        exact this ▸ base
      | cons c n' ihn =>
        rcases (List.suffix_cons_iff).mp hw with h | h
        · exact h ▸ base
        · exact GlobMatches.starTake c (ihn h)
    · match n with
      | [] => simp [globB, hp] at h
      | c :: n' =>
        simp only [globB, if_neg hp, Bool.and_eq_true] at h
        rcases Bool.or_eq_true_iff.mp h.1 with hq | hc
        · have : p = '?' := by simpa using hq
          exact this ▸ GlobMatches.one c (ih h.2)
        · by_cases hq : p = '?'
          · exact hq ▸ GlobMatches.one c (ih h.2)
          · exact GlobMatches.lit hp hq hc (ih h.2)

/-! ### Helper facts about the primitive comparisons -/

/-- Evaluation of `Char.ofNat` below the surrogate range. -/
theorem char_toNat_ofNat_of_lt {n : Nat} (h : n < 55296) :
    (Char.ofNat n).toNat = n := by
  rw [Char.ofNat, dif_pos (Or.inl h)]
  simp [Char.ofNatAux, Char.toNat, UInt32.toNat, BitVec.toNat_ofNatLt]

/-- A character order bound transfers to the code points. -/
theorem char_le_toNat {a b : Char} (h : a ≤ b) : a.toNat ≤ b.toNat := by
  have := Char.le_def.mp h
  simp only [UInt32.le_def] at this
  simpa [Char.toNat, UInt32.toNat] using this

/-- ASCII lowercasing fixes every character except the uppercase letters,
and never produces `'*'` from anything but `'*'`. -/
theorem asciiLower_eq_star {c : Char} (h : asciiLower c = '*') : c = '*' := by
  by_cases hc : 'A' ≤ c ∧ c ≤ 'Z'
  · exfalso
    rw [asciiLower, if_pos hc] at h
    have h1 : (65 : Nat) ≤ c.toNat := char_le_toNat hc.1
    have h2 : c.toNat ≤ (90 : Nat) := char_le_toNat hc.2
    have := congrArg Char.toNat h
    rw [char_toNat_ofNat_of_lt (by omega)] at this
    have hstar : ('*' : Char).toNat = 42 := by decide
    omega
  · rwa [asciiLower, if_neg hc] at h

/-- `'*'` compares equal (in either case mode) only to `'*'` itself. -/
theorem charsEq_star {cs : Bool} {c : Char} (h : charsEq cs '*' c = true) :
    c = '*' := by
  cases cs with
  | true =>
    have : '*' = c := by simpa [charsEq] using h
    exact this.symm
  | false =>
    simp only [charsEq, if_neg (by decide : ¬(false = true)), beq_iff_eq] at h
    have hstar : asciiLower '*' = '*' := by decide
    rw [hstar] at h
    exact asciiLower_eq_star h.symm

/-- The loop's first-branch condition with a `'*'` pattern character
forces a literal `'*'` in the name. -/
theorem pointRel_star {cs : Bool} {c : Char}
    (h : pointRel cs '*' c = true) : c = '*' := by
  rcases Bool.or_eq_true_iff.mp h with h | h
  · have : ('*' : Char) = '?' := by simpa using h
    exact absurd this (by decide)
  · exact charsEq_star h

theorem nonStarCount_append (a b : List Char) :
    nonStarCount (a ++ b) = nonStarCount a + nonStarCount b := by
  induction a with
  | nil => simp [nonStarCount]
  | cons p a ih => simp [nonStarCount, ih]; omega

theorem nonStarCount_of_starFree {q : List Char} (h : '*' ∉ q) :
    nonStarCount q = q.length := by
  induction q with
  | nil => rfl
  | cons p q ih =>
    have hp : p ≠ '*' := fun hc => h (hc ▸ List.mem_cons_self p q)
    simp only [nonStarCount, if_neg hp, List.length_cons]
    rw [ih (fun hm => h (List.mem_cons_of_mem _ hm))]
    omega

theorem allStar_of_nonStarCount_zero {π : List Char}
    (h : nonStarCount π = 0) : π.all (fun f => f == '*') = true := by
  induction π with
  | nil => rfl
  | cons p π ih =>
    by_cases hp : p = '*'
    · subst hp
      have h' : nonStarCount π = 0 := by simpa [nonStarCount] using h
      rw [List.all_cons, ih h']
      rfl
    · simp [nonStarCount, hp] at h

theorem not_mem_tail {α : Type} {a : α} {l : List α} (h : a ∉ l) :
    a ∉ l.tail := by
  cases l with
  | nil => simp
  | cons x xs => simp only [List.tail_cons]; exact fun hm => h (List.mem_cons_of_mem _ hm)

/-! ### Soundness of the backtracking loop -/

/-- If the loop accepts, then either the current pattern matches the
current name declaratively, or the saved checkpoint pattern matches from
the advanced checkpoint position. -/
theorem matchLoop_sound {cs : Bool} :
    ∀ (filt name : List Char) (starF : Option (List Char)) (starN : List Char),
      '*' ∉ name → '*' ∉ starN →
      (∀ sf, starF = some sf → ∃ r, sf = '*' :: r) →
      matchLoop cs filt name starF starN = true →
      globB cs filt name = true ∨
        ∃ sf, starF = some sf ∧ globB cs sf starN.tail = true := by
  intro filt name starF starN
  induction filt, name, starF, starN using matchLoop.induct cs with
  | case1 filt starF starN =>
    intro _ _ _ hrun
    rw [matchLoop] at hrun
    exact Or.inl ((globB_nil_iff filt).mpr hrun)
  | case2 starF starN c nt f ft h1 ih =>
    intro hname hstarN hshape hrun
    rw [matchLoop.eq_def] at hrun
    simp only [if_pos h1] at hrun
    have hf : f ≠ '*' := by
      intro hf
      subst hf
      have hc : c = '*' := pointRel_star h1
      subst hc
      exact hname (List.mem_cons_self _ _)
    rcases ih (fun hm => hname (List.mem_cons_of_mem _ hm)) hstarN hshape hrun with
      hg | ⟨sf, hsf, hg⟩
    · left
      simp [globB, if_neg hf, h1, hg]
    · exact Or.inr ⟨sf, hsf, hg⟩
  | case3 starF starN c nt f ft h1 h2 ih =>
    intro hname hstarN _ hrun
    have hf : f = '*' := by simpa using h2
    subst hf
    rw [matchLoop.eq_def] at hrun
    simp only [if_neg h1, if_pos (show (('*' : Char) == '*') = true from rfl)] at hrun
    rcases ih hname hname
      (by intro sf hsf; injection hsf with hsf; exact ⟨ft, hsf.symm⟩) hrun with
      hg | ⟨sf, hsf, hg⟩
    · exact Or.inl (globB_star_iff.mpr ⟨c :: nt, List.suffix_rfl, hg⟩)
    · left
      have hsf' : sf = '*' :: ft := by injection hsf with hsf; exact hsf.symm
      subst hsf'
      exact globB_star_of_suffix hg (by simpa using List.suffix_cons c nt)
  | case4 starN c nt f ft h1 h2 sf ih =>
    intro hname hstarN hshape hrun
    rw [matchLoop.eq_def] at hrun
    simp only [if_neg h1, if_neg h2] at hrun
    obtain ⟨r, hr⟩ := hshape sf rfl
    rcases ih (not_mem_tail hstarN) (not_mem_tail hstarN)
      (by intro sf' h; injection h with h; exact ⟨r, h.symm.trans hr⟩) hrun with
      hg | ⟨sf', hsf', hg⟩
    · exact Or.inr ⟨sf, rfl, hg⟩
    · have : sf' = sf := by injection hsf' with h; exact h.symm
      subst this
      subst hr
      exact Or.inr ⟨_, rfl, globB_star_of_suffix hg (List.tail_suffix _)⟩
  | case5 starN c nt f ft h1 h2 =>
    intro _ _ _ hrun
    rw [matchLoop.eq_def] at hrun
    simp only [if_neg h1, if_neg h2] at hrun
    exact absurd hrun (by simp)
  | case6 starN c nt sf ih =>
    intro hname hstarN hshape hrun
    rw [matchLoop.eq_def] at hrun
    obtain ⟨r, hr⟩ := hshape sf rfl
    rcases ih (not_mem_tail hstarN) (not_mem_tail hstarN)
      (by intro sf' h; injection h with h; exact ⟨r, h.symm.trans hr⟩) hrun with
      hg | ⟨sf', hsf', hg⟩
    · exact Or.inr ⟨sf, rfl, hg⟩
    · have : sf' = sf := by injection hsf' with h; exact h.symm
      subst this
      subst hr
      exact Or.inr ⟨_, rfl, globB_star_of_suffix hg (List.tail_suffix _)⟩
  | case7 starN c nt =>
    intro _ _ _ hrun
    rw [matchLoop.eq_def] at hrun
    simp at hrun

/-! ### Completeness of the backtracking loop

The invariant on reachable states: a checkpoint `sf` always starts with
`'*'`, and either the pattern/name cursors are the checkpoint cursors
advanced in lockstep over a star-free pattern segment (`pre`/`preN`), or
the state was just reset to the checkpoint. -/

/-- If the current pattern matches declaratively, or the checkpoint
pattern matches from the advanced checkpoint position, the loop accepts. -/
theorem matchLoop_complete {cs : Bool} :
    ∀ (filt name : List Char) (starF : Option (List Char)) (starN : List Char),
      '*' ∉ name → '*' ∉ starN →
      (∀ sf, starF = some sf →
        (∃ pre preN, sf = '*' :: (pre ++ filt) ∧ starN = preN ++ name ∧
            pre.length = preN.length ∧ '*' ∉ pre) ∨
        (filt = sf ∧ name = starN ∧ ∃ r, sf = '*' :: r)) →
      (globB cs filt name = true ∨
        ∃ sf, starF = some sf ∧ globB cs sf starN.tail = true) →
      matchLoop cs filt name starF starN = true := by
  intro filt name starF starN
  induction filt, name, starF, starN using matchLoop.induct cs with
  | case1 filt starF starN =>
    intro _ hstarN hinv hhyp
    rw [matchLoop]
    rcases hhyp with hg | ⟨sf, hsf, hg⟩
    · exact (globB_nil_iff filt).mp hg
    · rcases hinv sf hsf with ⟨pre, preN, hsf1, hstarN1, hlen, hpre⟩ |
        ⟨hfilt, hname, r, hr⟩
      · subst hsf1
        have hcount := globB_nonStar_le hg
        rw [List.length_tail] at hcount
        have hns : nonStarCount ('*' :: (pre ++ filt)) =
            pre.length + nonStarCount filt := by
          simp [nonStarCount, nonStarCount_append, nonStarCount_of_starFree hpre]
        rw [hns] at hcount
        have hlen2 : starN.length = preN.length := by rw [hstarN1]; simp
        have hzero : nonStarCount filt = 0 := by omega
        exact allStar_of_nonStarCount_zero hzero
      · have hsn : starN = [] := hname.symm
        subst hsn
        rw [← hfilt] at hg
        exact (globB_nil_iff filt).mp (by simpa using hg)
  | case2 starF starN c nt f ft h1 ih =>
    intro hname hstarN hinv hhyp
    have hf : f ≠ '*' := by
      intro hf
      subst hf
      have hc : c = '*' := pointRel_star h1
      subst hc
      exact hname (List.mem_cons_self _ _)
    rw [matchLoop.eq_def]
    simp only [if_pos h1]
    apply ih (fun hm => hname (List.mem_cons_of_mem _ hm)) hstarN
    · intro sf hsf
      rcases hinv sf hsf with ⟨pre, preN, e1, e2, hl, hp⟩ | ⟨hfilt, _, r, hr⟩
      · refine Or.inl ⟨pre ++ [f], preN ++ [c], ?_, ?_, ?_, ?_⟩
        · rw [e1]; simp
        · rw [e2]; simp
        · simp [hl]
        · intro hmem
          rcases List.mem_append.mp hmem with h | h
          · exact hp h
          · simp only [List.mem_singleton] at h
            exact hf h.symm
      · exfalso
        have : f :: ft = '*' :: r := hfilt.trans hr
        exact hf (by injection this)
    · rcases hhyp with hg | X
      · simp only [globB, if_neg hf, Bool.and_eq_true] at hg
        exact Or.inl hg.2
      · exact Or.inr X
  | case3 starF starN c nt f ft h1 h2 ih =>
    intro hname hstarN hinv hhyp
    have hf : f = '*' := by simpa using h2
    subst hf
    rw [matchLoop.eq_def]
    simp only [if_neg h1, if_pos (show (('*' : Char) == '*') = true from rfl)]
    apply ih hname hname
    · intro sf' hsf'
      have : sf' = '*' :: ft := by injection hsf' with h; exact h.symm
      subst this
      exact Or.inl ⟨[], [], by simp, by simp, rfl, by simp⟩
    · rcases hhyp with hg | ⟨sf, hsf, hg⟩
      · rcases globB_star_iff.mp hg with ⟨w, hw, hmatch⟩
        rcases List.suffix_cons_iff.mp hw with hww | hww
        · exact Or.inl (hww ▸ hmatch)
        · exact Or.inr ⟨'*' :: ft, rfl, by
            simp only [List.tail_cons]
            exact globB_star_iff.mpr ⟨w, hww, hmatch⟩⟩
      · rcases hinv sf hsf with ⟨pre, preN, e1, e2, hl, hp⟩ | ⟨hfilt, hname2, r, hr⟩
        · subst e1
          rcases globB_star_iff.mp hg with ⟨s, hs, h2s⟩
          rcases globB_append_of_starFree hp h2s with ⟨w, hw, hlenw, h3⟩
          have hslen : s.length ≤ starN.tail.length := hs.length_le
          rw [List.length_tail] at hslen
          have hSN : starN.length = preN.length + (nt.length + 1) := by
            rw [e2]; simp
          have hwlen : w.length ≤ nt.length := by omega
          have hwn : w <:+ nt := by
            apply suffix_of_append_short (preN ++ [c]) nt ?_ hwlen
            have hwstarN : w <:+ starN := (hw.trans hs).trans (List.tail_suffix starN)
            rwa [e2, show preN ++ c :: nt = (preN ++ [c]) ++ nt by simp] at hwstarN
          exact Or.inr ⟨'*' :: ft, rfl, by
            simp only [List.tail_cons]
            exact globB_star_of_suffix h3 hwn⟩
        · refine Or.inr ⟨'*' :: ft, rfl, ?_⟩
          rw [← hfilt] at hg
          rw [← hname2] at hg
          simpa using hg
  | case4 starN c nt f ft h1 h2 sf ih =>
    intro hname hstarN hinv hhyp
    rw [matchLoop.eq_def]
    simp only [if_neg h1, if_neg h2]
    have hr : ∃ r, sf = '*' :: r := by
      rcases hinv sf rfl with ⟨pre, preN, e1, _, _, _⟩ | ⟨_, _, r, hrr⟩
      · exact ⟨pre ++ (f :: ft), e1⟩
      · exact ⟨r, hrr⟩
    apply ih (not_mem_tail hstarN) (not_mem_tail hstarN)
    · intro sf' h
      have heq : sf = sf' := by injection h
      exact Or.inr ⟨heq, rfl, heq ▸ hr⟩
    · rcases hhyp with hg | ⟨sf0, hsf0, hg⟩
      · exfalso
        have hf : f ≠ '*' := by simpa using h2
        simp only [globB, if_neg hf, Bool.and_eq_true] at hg
        exact h1 hg.1
      · have : sf0 = sf := by injection hsf0 with h; exact h.symm
        exact Or.inl (this ▸ hg)
  | case5 starN c nt f ft h1 h2 =>
    intro hname hstarN hinv hhyp
    exfalso
    rcases hhyp with hg | ⟨sf, hsf, hg⟩
    · have hf : f ≠ '*' := by simpa using h2
      simp only [globB, if_neg hf, Bool.and_eq_true] at hg
      exact h1 hg.1
    · simp at hsf
  | case6 starN c nt sf ih =>
    intro hname hstarN hinv hhyp
    rw [matchLoop.eq_def]
    have hr : ∃ r, sf = '*' :: r := by
      rcases hinv sf rfl with ⟨pre, preN, e1, _, _, _⟩ | ⟨hfilt, _, r, hrr⟩
      · exact ⟨pre ++ [], e1⟩
      · exact absurd (hfilt.trans hrr) (by simp)
    apply ih (not_mem_tail hstarN) (not_mem_tail hstarN)
    · intro sf' h
      have heq : sf = sf' := by injection h
      exact Or.inr ⟨heq, rfl, heq ▸ hr⟩
    · rcases hhyp with hg | ⟨sf0, hsf0, hg⟩
      · exfalso
        simp [globB] at hg
      · have : sf0 = sf := by injection hsf0 with h; exact h.symm
        exact Or.inl (this ▸ hg)
  | case7 starN c nt =>
    intro _ _ _ hhyp
    exfalso
    rcases hhyp with hg | ⟨sf, hsf, hg⟩
    · simp [globB] at hg
    · simp at hsf

/-- A nonempty all-star pattern matches declaratively against any name. -/
theorem globB_allStar {cs : Bool} {p : List Char} (hne : p ≠ [])
    (hall : p.all (fun f => f == '*') = true) (n : List Char) :
    globB cs p n = true := by
  match p with
  | [] => exact absurd rfl hne
  | q :: rest =>
    rw [List.all_cons, Bool.and_eq_true] at hall
    have hq : q = '*' := by simpa using hall.1
    subst hq
    exact globB_star_iff.mpr ⟨[], List.nil_suffix, (globB_nil_iff rest).mpr hall.2⟩

/-- For names free of literal `'*'` characters, `matches_filter` decides
exactly the spec's wildcard semantics (with the empty pattern accepted
unconditionally, as the code's shortcut dictates). -/
theorem matches_filter_glob_iff {cs : Bool} {name pattern : List Char}
    (hname : '*' ∉ name) :
    matches_filter name pattern cs = true ↔
      (pattern = [] ∨ GlobMatches cs pattern name) := by
  by_cases hshort : pattern = [] ∨ pattern = ['*']
  · rw [matches_filter, if_pos hshort]
    constructor
    · intro _
      rcases hshort with h | h
      · exact Or.inl h
      · subst h
        exact Or.inr (GlobMatches.ofGlobB (globB_allStar (by simp) (by simp) name))
    · intro _; rfl
  · rw [matches_filter, if_neg hshort]
    constructor
    · intro hrun
      rcases matchLoop_sound pattern name none name hname hname
        (fun sf h => nomatch h) hrun with hg | ⟨sf, hsf, _⟩
      · exact Or.inr (GlobMatches.ofGlobB hg)
      · exact nomatch hsf
    · intro h
      rcases h with h | h
      · exact absurd (Or.inl h) hshort
      · exact matchLoop_complete pattern name none name hname hname
          (fun sf h => nomatch h) (Or.inl h.toGlobB)

/-! ### Filesystem model and the breadth-first walkers

A directory tree is a nested inductive: a file carries its base name and
either its byte content (`some bytes`, metadata readable, size =
`bytes.length`) or `none` (its metadata cannot be read); a directory
carries its base name, whether `read_dir` succeeds on it, and its
entries in listing order. -/

/-- One node of the scanned directory tree. -/
inductive FsNode where
  /-- A regular file: base name, and its bytes if metadata is readable. -/
  | file (name : List Char) (content : Option (List Nat)) : FsNode
  /-- A directory: base name, whether listing succeeds, entries in order. -/
  | dir (name : List Char) (readable : Bool) (entries : List FsNode) : FsNode
deriving Repr

/-- `DedupOptions` (src/types.rs): filters, empty-file policy, case
sensitivity, and the size-only switch consumed by the aggregation stage. -/
structure DedupOptions where
  filters : List (List Char)
  exclude_empty : Bool
  case_sensitive : Bool
  only_compare_file_size : Bool

/-- `FileInfo` (src/dedup.rs): the path (as the list of name components
below the scan root) and size of one surviving file; the byte content is
carried along for the hashing stage. -/
structure FileInfo where
  path : List (List Char)
  size : Nat
  content : List Nat
deriving DecidableEq, Repr

/-- A pending directory on the breadth-first work queue: its path, its
`read_dir` outcome and its entries. -/
structure DTask where
  path : List (List Char)
  ok : Bool
  entries : List FsNode
deriving Repr

mutual

/-- Number of nodes in a tree, for the walkers' termination measure. -/
def nodeSize : FsNode → Nat
  | .file _ _ => 1
  | .dir _ _ es => 1 + nodesSize es

/-- Number of nodes in a forest. -/
def nodesSize : List FsNode → Nat
  | [] => 0
  | n :: ns => nodeSize n + nodesSize ns

end

/-- Size of a work queue: one unit per pending directory plus its
contents. -/
def tasksSize : List DTask → Nat
  | [] => 0
  | t :: ts => 1 + nodesSize t.entries + tasksSize ts

theorem tasksSize_append (a b : List DTask) :
    tasksSize (a ++ b) = tasksSize a + tasksSize b := by
  induction a with
  | nil => simp [tasksSize]
  | cons t ts ih => simp [tasksSize, ih]; omega

/-- The per-directory entry loop of `scan_directory` (src/dedup.rs
60-97): subdirectories are queued (in listing order), a regular file is
kept when it passes `matches_filters`, its metadata is readable, and it
is not excluded as empty; metadata failures are skipped silently. -/
def processEntries (opts : DedupOptions) (dirPath : List (List Char)) :
    List FsNode → List DTask × List FileInfo
  | [] => ([], [])
  | FsNode.dir nm ok es :: rest =>
    let out := processEntries opts dirPath rest
    (⟨dirPath ++ [nm], ok, es⟩ :: out.1, out.2)
  | FsNode.file nm cont :: rest =>
    let out := processEntries opts dirPath rest
    if ¬ matches_filters nm opts.filters opts.case_sensitive then out
    else
      match cont with
      | none => out
      | some bytes =>
        if bytes.length = 0 ∧ opts.exclude_empty then out
        else (out.1, ⟨dirPath ++ [nm], bytes.length, bytes⟩ :: out.2)

theorem processEntries_tasksSize (opts : DedupOptions)
    (dirPath : List (List Char)) :
    ∀ es : List FsNode, tasksSize (processEntries opts dirPath es).1 ≤ nodesSize es := by
  intro es
  induction es with
  | nil => simp [processEntries, tasksSize]
  | cons e rest ih =>
    match e with
    | FsNode.dir nm ok es' =>
      simp only [processEntries, tasksSize, nodesSize, nodeSize]
      omega
    | FsNode.file nm cont =>
      simp only [processEntries]
      have hle : nodesSize rest ≤ nodesSize (FsNode.file nm cont :: rest) := by
        simp [nodesSize, nodeSize]
      by_cases hm : ¬ matches_filters nm opts.filters opts.case_sensitive
      · simp only [if_pos hm]; omega
      · simp only [if_neg hm]
        match cont with
        | none => exact le_trans ih hle
        | some bytes =>
          by_cases hz : bytes.length = 0 ∧ opts.exclude_empty
          · simp only [if_pos hz]; omega
          · simp only [if_neg hz]; exact le_trans ih hle

/-- The single-pass walker of `scan_directory` (src/dedup.rs 45-101),
its `size_map` accumulation deferred: a failed directory listing aborts
the whole run, metadata failures skip the file.  Records are produced in
breadth-first encounter order. -/
def walkDedup (opts : DedupOptions) : List DTask → Except String (List FileInfo)
  | [] => .ok []
  | t :: rest =>
    if t.ok then
      match walkDedup opts (rest ++ (processEntries opts t.path t.entries).1) with
      | .ok more => .ok ((processEntries opts t.path t.entries).2 ++ more)
      | .error e => .error e
    else .error "Failed to read directory"
termination_by q => tasksSize q
decreasing_by
  have := processEntries_tasksSize opts t.path t.entries
  simp [tasksSize_append, tasksSize]
  omega

/-- The per-directory entry loop of `FileIter::next` (src/file_iter.rs
45-77): identical filtering, but a metadata failure yields an error for
the stream instead of being skipped. -/
def processEntriesIter (opts : DedupOptions) (dirPath : List (List Char)) :
    List FsNode → Except String (List DTask × List FileInfo)
  | [] => .ok ([], [])
  | FsNode.dir nm ok es :: rest =>
    match processEntriesIter opts dirPath rest with
    | .ok out => .ok (⟨dirPath ++ [nm], ok, es⟩ :: out.1, out.2)
    | .error e => .error e
  | FsNode.file nm cont :: rest =>
    if ¬ matches_filters nm opts.filters opts.case_sensitive then
      processEntriesIter opts dirPath rest
    else
      match cont with
      | none => .error "Failed to get metadata"
      | some bytes =>
        if bytes.length = 0 ∧ opts.exclude_empty then
          processEntriesIter opts dirPath rest
        else
          match processEntriesIter opts dirPath rest with
          | .ok out => .ok (out.1, ⟨dirPath ++ [nm], bytes.length, bytes⟩ :: out.2)
          | .error e => .error e

theorem processEntriesIter_tasksSize (opts : DedupOptions)
    (dirPath : List (List Char)) :
    ∀ (es : List FsNode) (out : List DTask × List FileInfo),
      processEntriesIter opts dirPath es = .ok out →
      tasksSize out.1 ≤ nodesSize es := by
  intro es
  induction es with
  | nil =>
    intro out h
    simp only [processEntriesIter] at h
    injection h with h
    subst h
    simp [tasksSize, nodesSize]
  | cons e rest ih =>
    intro out h
    match e with
    | FsNode.dir nm ok es' =>
      simp only [processEntriesIter] at h
      match hrest : processEntriesIter opts dirPath rest with
      | .ok out' =>
        rw [hrest] at h
        injection h with h
        subst h
        have := ih out' hrest
        simp only [tasksSize, nodesSize, nodeSize]
        omega
      | .error e' => rw [hrest] at h; exact absurd h (by simp)
    | FsNode.file nm cont =>
      simp only [processEntriesIter] at h
      have hle : nodesSize rest ≤ nodesSize (FsNode.file nm cont :: rest) := by
        simp [nodesSize, nodeSize]
      by_cases hm : ¬ matches_filters nm opts.filters opts.case_sensitive
      · rw [if_pos hm] at h
        exact le_trans (ih out h) hle
      · rw [if_neg hm] at h
        match cont with
        | none => exact absurd h (by simp)
        | some bytes =>
          by_cases hz : bytes.length = 0 ∧ opts.exclude_empty
          · simp only [if_pos hz] at h
            exact le_trans (ih out h) hle
          · simp only [if_neg hz] at h
            match hrest : processEntriesIter opts dirPath rest with
            | .ok out' =>
              rw [hrest] at h
              injection h with h
              subst h
              exact le_trans (ih out' hrest) hle
            | .error e' => rw [hrest] at h; exact absurd h (by simp)

/-- The streaming walker of `FileIter` (src/file_iter.rs 42-90), drained
to completion as `collect::<Result<Vec<_>, _>>` does: the first error in
breadth-first order aborts the whole sequence, whether it comes from an
unreadable directory or from a file whose metadata cannot be read. -/
def walkIter (opts : DedupOptions) : List DTask → Except String (List FileInfo)
  | [] => .ok []
  | t :: rest =>
    if t.ok then
      match hpe : processEntriesIter opts t.path t.entries with
      | .ok out =>
        match walkIter opts (rest ++ out.1) with
        | .ok more => .ok (out.2 ++ more)
        | .error e => .error e
      | .error e => .error e
    else .error "Failed to read directory"
termination_by q => tasksSize q
decreasing_by
  have := processEntriesIter_tasksSize opts t.path t.entries out hpe
  simp [tasksSize_append, tasksSize]
  omega

/-- Fuel-indexed mirror of `walkDedup`, structural in the fuel. -/
def walkDedupF (opts : DedupOptions) :
    Nat → List DTask → Option (Except String (List FileInfo))
  | 0, _ => none
  | _ + 1, [] => some (.ok [])
  | fuel + 1, t :: rest =>
    if t.ok then
      match walkDedupF opts fuel (rest ++ (processEntries opts t.path t.entries).1) with
      | some (.ok more) => some (.ok ((processEntries opts t.path t.entries).2 ++ more))
      | some (.error e) => some (.error e)
      | none => none
    else some (.error "Failed to read directory")

/-- Case split helper for optional fallible results. -/
theorem optExcept_cases {e1 : Type} {a1 : Type} (x : Option (Except e1 a1)) :
    (∃ a, x = some (.ok a)) ∨ (∃ e, x = some (.error e)) ∨ x = none := by
  match x with
  | some (.ok a) => exact Or.inl ⟨a, rfl⟩
  | some (.error e) => exact Or.inr (Or.inl ⟨e, rfl⟩)
  | none => exact Or.inr (Or.inr rfl)

/-- A fuel-computed answer agrees with `walkDedup`. -/
theorem walkDedupF_sound {opts : DedupOptions} :
    ∀ (fuel : Nat) {q : List DTask} {res : Except String (List FileInfo)},
      walkDedupF opts fuel q = some res → walkDedup opts q = res := by
  intro fuel
  induction fuel with
  | zero => intro q res h; simp [walkDedupF] at h
  | succ n ih =>
    intro q res h
    match q with
    | [] =>
      simp only [walkDedupF] at h
      injection h with h
      subst h
      rw [walkDedup]
    | t :: rest =>
      rw [walkDedup.eq_def]
      simp only [walkDedupF] at h
      by_cases hok : t.ok = true
      · simp only [if_pos hok] at h ⊢
        rcases optExcept_cases
            (walkDedupF opts n (rest ++ (processEntries opts t.path t.entries).1)) with
          ⟨more, hrec⟩ | ⟨e, hrec⟩ | hrec
        · simp only [hrec] at h
          injection h with h
          subst h
          simp [ih hrec]
        · simp only [hrec] at h
          injection h with h
          subst h
          simp [ih hrec]
        · rw [hrec] at h
          exact absurd h (by simp)
      · simp only [if_neg hok] at h ⊢
        injection h with h

/-- Fuel-indexed mirror of `walkIter`, structural in the fuel. -/
def walkIterF (opts : DedupOptions) :
    Nat → List DTask → Option (Except String (List FileInfo))
  | 0, _ => none
  | _ + 1, [] => some (.ok [])
  | fuel + 1, t :: rest =>
    if t.ok then
      match processEntriesIter opts t.path t.entries with
      | .ok out =>
        match walkIterF opts fuel (rest ++ out.1) with
        | some (.ok more) => some (.ok (out.2 ++ more))
        | some (.error e) => some (.error e)
        | none => none
      | .error e => some (.error e)
    else some (.error "Failed to read directory")

/-- A fuel-computed answer agrees with `walkIter`. -/
theorem walkIterF_sound {opts : DedupOptions} :
    ∀ (fuel : Nat) {q : List DTask} {res : Except String (List FileInfo)},
      walkIterF opts fuel q = some res → walkIter opts q = res := by
  intro fuel
  induction fuel with
  | zero => intro q res h; simp [walkIterF] at h
  | succ n ih =>
    intro q res h
    match q with
    | [] =>
      simp only [walkIterF] at h
      injection h with h
      subst h
      rw [walkIter]
    | t :: rest =>
      rw [walkIter.eq_def]
      simp only [walkIterF] at h
      by_cases hok : t.ok = true
      · simp only [if_pos hok] at h ⊢
        rcases hpe2 : processEntriesIter opts t.path t.entries with e | out
        · simp only [hpe2] at h
          injection h with h
        · simp only [hpe2] at h ⊢
          rcases optExcept_cases (walkIterF opts n (rest ++ out.1)) with
            ⟨more, hrec⟩ | ⟨e, hrec⟩ | hrec
          · simp only [hrec] at h
            injection h with h
            subst h
            simp [ih hrec]
          · simp only [hrec] at h
            injection h with h
            subst h
            simp [ih hrec]
          · rw [hrec] at h
            exact absurd h (by simp)
      · simp only [if_neg hok] at h ⊢
        injection h with h

/-! ### Grouping: size buckets and the content-hash aggregation -/

/-- Modelled from the spec: the `ContentHasher` digest of section 4.4 is
absent from src/; it folds the file's bytes in order through
`accumulator = accumulator * 31 + byte` on a 64-bit accumulator. -/
def digest (bytes : List Nat) : Nat :=
  bytes.foldl (fun acc b => (acc * 31 + b) % (2 ^ 64)) 0

/-- `HashMap::entry(k).or_insert_with(Vec::new).push(r)`: the map is an
association list in first-insertion key order, each bucket in insertion
order. -/
def insertGrp (k : Nat) (r : FileInfo) :
    List (Nat × List FileInfo) → List (Nat × List FileInfo)
  | [] => [(k, [r])]
  | (k', l) :: rest =>
    if k' = k then (k', l ++ [r]) :: rest else (k', l) :: insertGrp k r rest

/-- Build the grouping map keyed by `key` over the records in order. -/
def buildMap (key : FileInfo → Nat) (recs : List FileInfo) :
    List (Nat × List FileInfo) :=
  recs.foldl (fun m r => insertGrp (key r) r m) []

/-- The size-bucket stage of `find_duplicates` (src/dedup.rs 32-42):
bucket by size, keep buckets with more than one member.  When
`only_compare_file_size` is set the buckets are the groups; otherwise —
modelled from the spec (section 4.5), the `DuplicateAggregator` being
absent from src/ — every surviving bucket is regrouped by content
digest and singleton digest groups are discarded. -/
def groupPipeline (onlySize : Bool) (recs : List FileInfo) :
    List (List FileInfo) :=
  let buckets := (buildMap (fun r => r.size) recs).filter (fun kv => 1 < kv.2.length)
  if onlySize then buckets.map (fun kv => kv.2)
  else (buckets.map (fun kv =>
    ((buildMap (fun r => digest r.content) kv.2).filter
        (fun dv => 1 < dv.2.length)).map (fun dv => dv.2))).flatten

/-- `find_duplicates` over a scan root (src/dedup.rs 28-43 composed with
src/main.rs `run`): walk the tree, bucket by size, and aggregate. -/
def find_duplicates (opts : DedupOptions) (rootOk : Bool)
    (rootEntries : List FsNode) : Except String (List (List FileInfo)) :=
  match walkDedup opts [⟨[], rootOk, rootEntries⟩] with
  | .ok recs => .ok (groupPipeline opts.only_compare_file_size recs)
  | .error e => .error e

/-! ### Properties of the grouping map -/

/-- Appending a record extends the map's bucket-contents invariant. -/
theorem insertGrp_filter (key : FileInfo → Nat) (r : FileInfo)
    (processed : List FileInfo) :
    ∀ m : List (Nat × List FileInfo),
      (∀ kv, kv ∈ m → kv.2 = processed.filter (fun x => key x == kv.1)) →
      (m.map Prod.fst).Nodup →
      ((∃ l, (key r, l) ∈ m) ∨
        processed.filter (fun x => key x == key r) = []) →
      ∀ kv, kv ∈ insertGrp (key r) r m →
        kv.2 = (processed ++ [r]).filter (fun x => key x == kv.1) := by
  intro m
  induction m with
  | nil =>
    intro _ _ hempty kv hkv
    simp only [insertGrp, List.mem_singleton] at hkv
    subst hkv
    rcases hempty with ⟨l, hl⟩ | hempty
    · simp at hl
    · simp [List.filter_append, hempty]
  | cons hd rest ih =>
    intro h1 h2 hempty kv hkv
    match hd with
    | (k', l) =>
      simp only [insertGrp] at hkv
      by_cases hk : k' = key r
      · rw [if_pos hk] at hkv
        rcases List.mem_cons.mp hkv with h | h
        · subst h
          have hl := h1 (k', l) (List.mem_cons_self _ _)
          simp only at hl
          rw [List.filter_append, ← hl]
          have : (key r == k') = true := beq_iff_eq.mpr hk.symm
          simp [List.filter_cons, this]
        · have heq := h1 kv (List.mem_cons_of_mem _ h)
          rw [heq, List.filter_append]
          have hne : kv.1 ≠ k' := by
            intro hEq
            simp only [List.map_cons, List.nodup_cons] at h2
            exact h2.1 (hEq ▸ List.mem_map_of_mem Prod.fst h)
          have : (key r == kv.1) = false := by
            rw [beq_eq_false_iff_ne]
            intro hc
            exact hne (by rw [← hc, hk])
          simp [List.filter_cons, this]
      · rw [if_neg hk] at hkv
        rcases List.mem_cons.mp hkv with h | h
        · subst h
          have hl := h1 (k', l) (List.mem_cons_self _ _)
          simp only at hl
          rw [hl, List.filter_append]
          have : (key r == k') = false := by
            rw [beq_eq_false_iff_ne]
            exact fun hc => hk hc.symm
          simp [List.filter_cons, this]
        · refine ih ?_ ?_ ?_ kv h
          · exact fun kv' hkv' => h1 kv' (List.mem_cons_of_mem _ hkv')
          · simp only [List.map_cons, List.nodup_cons] at h2
            exact h2.2
          · rcases hempty with ⟨l0, hl0⟩ | hempty
            · rcases List.mem_cons.mp hl0 with h0 | h0
              · exact absurd (congrArg Prod.fst h0).symm hk
              · exact Or.inl ⟨l0, h0⟩
            · exact Or.inr hempty

/-- Inserting guarantees the inserted key is present. -/
theorem insertGrp_mem_self (k : Nat) (r : FileInfo) :
    ∀ m : List (Nat × List FileInfo), ∃ l, (k, l) ∈ insertGrp k r m := by
  intro m
  induction m with
  | nil => exact ⟨[r], List.mem_singleton_self _⟩
  | cons hd rest ih =>
    match hd with
    | (k', l) =>
      by_cases hk : k' = k
      · subst hk
        exact ⟨l ++ [r], by simp [insertGrp]⟩
      · simp only [insertGrp, if_neg hk]
        obtain ⟨l', hl'⟩ := ih
        exact ⟨l', List.mem_cons_of_mem _ hl'⟩

/-- The keys after an insertion: unchanged when the key was present,
otherwise the new key is appended. -/
theorem insertGrp_keys (k : Nat) (r : FileInfo) :
    ∀ m : List (Nat × List FileInfo),
      (insertGrp k r m).map Prod.fst =
        if k ∈ m.map Prod.fst then m.map Prod.fst
        else m.map Prod.fst ++ [k] := by
  intro m
  induction m with
  | nil => simp [insertGrp]
  | cons hd rest ih =>
    match hd with
    | (k', l) =>
      by_cases hk : k' = k
      · subst hk
        simp [insertGrp]
      · simp only [insertGrp, if_neg hk, List.map_cons, ih]
        by_cases hmem : k ∈ rest.map Prod.fst
        · rw [if_pos hmem, if_pos (List.mem_cons_of_mem _ hmem)]
        · have hnot : k ∉ k' :: rest.map Prod.fst := by
            simp only [List.mem_cons]
            rintro (h | h)
            · exact hk h.symm
            · exact hmem h
          rw [if_neg hmem, if_neg hnot]
          simp

/-- Inserting preserves all previously present keys. -/
theorem insertGrp_mem_of_mem (k : Nat) (r : FileInfo) {k0 : Nat}
    {l0 : List FileInfo} (m : List (Nat × List FileInfo))
    (hmem : (k0, l0) ∈ m) : ∃ l', (k0, l') ∈ insertGrp k r m := by
  have hk0 : k0 ∈ (insertGrp k r m).map Prod.fst := by
    rw [insertGrp_keys]
    have : k0 ∈ m.map Prod.fst := List.mem_map_of_mem Prod.fst hmem
    by_cases hc : k ∈ m.map Prod.fst
    · rwa [if_pos hc]
    · rw [if_neg hc]
      exact List.mem_append_left _ this
  rcases List.mem_map.mp hk0 with ⟨kv, hkv, hfst⟩
  exact ⟨kv.2, by rwa [← hfst, Prod.mk.eta]⟩

/-- Inserting preserves distinctness of the keys. -/
theorem insertGrp_nodup (k : Nat) (r : FileInfo)
    (m : List (Nat × List FileInfo)) (hnd : (m.map Prod.fst).Nodup) :
    ((insertGrp k r m).map Prod.fst).Nodup := by
  rw [insertGrp_keys]
  by_cases hc : k ∈ m.map Prod.fst
  · rwa [if_pos hc]
  · rw [if_neg hc]
    rw [List.nodup_append]
    exact ⟨hnd, List.nodup_singleton k, by
      intro a ha hmem
      simp only [List.mem_singleton] at hmem
      exact hc (hmem ▸ ha)⟩

/-- The fold invariant of the grouping map: every bucket is the filter
of the processed records at its key, and every processed record's key
owns a bucket. -/
theorem buildMap_inv (key : FileInfo → Nat) :
    ∀ (recs processed : List FileInfo) (m : List (Nat × List FileInfo)),
      (∀ kv, kv ∈ m → kv.2 = processed.filter (fun x => key x == kv.1)) →
      (m.map Prod.fst).Nodup →
      (∀ r', r' ∈ processed → ∃ l, (key r', l) ∈ m) →
      (∀ kv, kv ∈ recs.foldl (fun m r => insertGrp (key r) r m) m →
          kv.2 = (processed ++ recs).filter (fun x => key x == kv.1)) ∧
      (∀ r', r' ∈ processed ++ recs →
          ∃ l, (key r', l) ∈ recs.foldl (fun m r => insertGrp (key r) r m) m) := by
  intro recs
  induction recs with
  | nil =>
    intro processed m h1 h2 h3
    simp only [List.foldl_nil, List.append_nil]
    exact ⟨h1, h3⟩
  | cons a rest ih =>
    intro processed m h1 h2 h3
    simp only [List.foldl_cons]
    have hstep1 : ∀ kv, kv ∈ insertGrp (key a) a m →
        kv.2 = (processed ++ [a]).filter (fun x => key x == kv.1) := by
      apply insertGrp_filter key a processed m h1 h2
      by_cases hc : ∃ l, (key a, l) ∈ m
      · exact Or.inl hc
      · right
        rw [List.filter_eq_nil]
        intro x hx hbeq
        have hxa : key x = key a := by simpa using hbeq
        obtain ⟨l, hl⟩ := h3 x hx
        exact hc ⟨l, hxa ▸ hl⟩
    have hstep2 : ((insertGrp (key a) a m).map Prod.fst).Nodup :=
      insertGrp_nodup _ _ _ h2
    have hstep3 : ∀ r', r' ∈ processed ++ [a] →
        ∃ l, (key r', l) ∈ insertGrp (key a) a m := by
      intro r' hr'
      rcases List.mem_append.mp hr' with h | h
      · obtain ⟨l, hl⟩ := h3 r' h
        exact insertGrp_mem_of_mem _ _ _ hl
      · simp only [List.mem_singleton] at h
        subst h
        exact insertGrp_mem_self _ _ _
    have hmain := ih (processed ++ [a]) (insertGrp (key a) a m) hstep1 hstep2 hstep3
    rw [List.append_assoc] at hmain
    simpa using hmain

/-- Every bucket of the grouping map is the ordered filter of the
records at its key. -/
theorem buildMap_filter (key : FileInfo → Nat) (recs : List FileInfo) :
    ∀ kv, kv ∈ buildMap key recs →
      kv.2 = recs.filter (fun x => key x == kv.1) := by
  have h := buildMap_inv key recs [] [] (by simp) (by simp) (by simp)
  simpa [buildMap] using h.1

/-- Every record lands in the bucket of its key. -/
theorem buildMap_mem (key : FileInfo → Nat) (recs : List FileInfo)
    {r : FileInfo} (h : r ∈ recs) :
    ∃ l, (key r, l) ∈ buildMap key recs ∧ r ∈ l := by
  have hinv := buildMap_inv key recs [] [] (by simp) (by simp) (by simp)
  obtain ⟨l, hl⟩ := hinv.2 r (by simpa using h)
  refine ⟨l, by simpa [buildMap] using hl, ?_⟩
  have := hinv.1 (key r, l) hl
  simp only at this
  rw [this]
  exact List.mem_filter.mpr ⟨by simpa using h, by simp⟩

/-- Two distinct members force at least two elements. -/
theorem one_lt_length_of_two_mem {α : Type} {a b : α} {l : List α}
    (hab : a ≠ b) (ha : a ∈ l) (hb : b ∈ l) : 1 < l.length := by
  match l with
  | [] => exact absurd ha (by simp)
  | [x] =>
    simp only [List.mem_singleton] at ha hb
    exact absurd (ha.trans hb.symm) hab
  | x :: y :: ys => simp [List.length_cons]

/-- Membership characterization of the size-only groups. -/
theorem mem_groupPipeline_true {recs : List FileInfo} {g : List FileInfo} :
    g ∈ groupPipeline true recs ↔
      ∃ kv, kv ∈ buildMap (fun r => r.size) recs ∧ 1 < kv.2.length ∧
        g = kv.2 := by
  have hdef : groupPipeline true recs =
      ((buildMap (fun r => r.size) recs).filter
        (fun kv => 1 < kv.2.length)).map (fun kv => kv.2) := rfl
  rw [hdef]
  simp only [List.mem_map, List.mem_filter]
  constructor
  · rintro ⟨kv, ⟨hkv, hlen⟩, rfl⟩
    exact ⟨kv, hkv, by simpa using hlen, rfl⟩
  · rintro ⟨kv, hkv, hlen, rfl⟩
    exact ⟨kv, ⟨hkv, by simpa using hlen⟩, rfl⟩

/-- Membership characterization of the hash-mode groups. -/
theorem mem_groupPipeline_false {recs : List FileInfo} {g : List FileInfo} :
    g ∈ groupPipeline false recs ↔
      ∃ kv dv, kv ∈ buildMap (fun r => r.size) recs ∧ 1 < kv.2.length ∧
        dv ∈ buildMap (fun r => digest r.content) kv.2 ∧ 1 < dv.2.length ∧
        g = dv.2 := by
  have hdef : groupPipeline false recs =
      (((buildMap (fun r => r.size) recs).filter
          (fun kv => 1 < kv.2.length)).map (fun kv =>
        ((buildMap (fun r => digest r.content) kv.2).filter
            (fun dv => 1 < dv.2.length)).map (fun dv => dv.2))).flatten := rfl
  rw [hdef]
  simp only [List.mem_flatten, List.mem_map, List.mem_filter]
  constructor
  · rintro ⟨gs, ⟨kv, ⟨hkv, hkvlen⟩, rfl⟩, hg⟩
    rcases List.mem_map.mp hg with ⟨dv, hdv, rfl⟩
    rcases List.mem_filter.mp hdv with ⟨hdv2, hdvlen⟩
    exact ⟨kv, dv, hkv, by simpa using hkvlen, hdv2, by simpa using hdvlen, rfl⟩
  · rintro ⟨kv, dv, hkv, hkvlen, hdv, hdvlen, rfl⟩
    refine ⟨_, ⟨kv, ⟨hkv, by simpa using hkvlen⟩, rfl⟩, ?_⟩
    exact List.mem_map_of_mem _ (List.mem_filter.mpr ⟨hdv, by simpa using hdvlen⟩)

/-- Every group of either mode has at least two members. -/
theorem groupPipeline_length {flag : Bool} {recs : List FileInfo}
    {g : List FileInfo} (hg : g ∈ groupPipeline flag recs) : 1 < g.length := by
  cases flag with
  | true =>
    rcases mem_groupPipeline_true.mp hg with ⟨kv, _, hlen, rfl⟩
    exact hlen
  | false =>
    rcases mem_groupPipeline_false.mp hg with ⟨kv, dv, _, _, _, hlen, rfl⟩
    exact hlen

/-- Group members come from the input records. -/
theorem groupPipeline_sub {flag : Bool} {recs : List FileInfo}
    {g : List FileInfo} {r : FileInfo} (hg : g ∈ groupPipeline flag recs)
    (hr : r ∈ g) : r ∈ recs := by
  cases flag with
  | true =>
    rcases mem_groupPipeline_true.mp hg with ⟨kv, hkv, _, rfl⟩
    rw [buildMap_filter _ _ kv hkv] at hr
    exact (List.mem_filter.mp hr).1
  | false =>
    rcases mem_groupPipeline_false.mp hg with ⟨kv, dv, hkv, _, hdv, _, rfl⟩
    rw [buildMap_filter _ _ dv hdv] at hr
    have hr2 := (List.mem_filter.mp hr).1
    rw [buildMap_filter _ _ kv hkv] at hr2
    exact (List.mem_filter.mp hr2).1

/-- Two distinct records of equal size and equal digest always share a
group, in either mode. -/
theorem groupPipeline_together {flag : Bool} {recs : List FileInfo}
    {r1 r2 : FileInfo} (h1 : r1 ∈ recs) (h2 : r2 ∈ recs) (hne : r1 ≠ r2)
    (hsz : r1.size = r2.size) (hdg : digest r1.content = digest r2.content) :
    ∃ g, g ∈ groupPipeline flag recs ∧ r1 ∈ g ∧ r2 ∈ g := by
  obtain ⟨l, hl, hr1l⟩ := buildMap_mem (fun r => r.size) recs h1
  have hlfil := buildMap_filter _ _ (r1.size, l) hl
  simp only at hlfil
  have hr2l : r2 ∈ l := by
    rw [hlfil]
    exact List.mem_filter.mpr ⟨h2, by simp [hsz]⟩
  have hllen : 1 < l.length := one_lt_length_of_two_mem hne hr1l hr2l
  cases flag with
  | true =>
    exact ⟨l, mem_groupPipeline_true.mpr ⟨(r1.size, l), hl, hllen, rfl⟩,
      hr1l, hr2l⟩
  | false =>
    obtain ⟨l2, hl2, hr1l2⟩ := buildMap_mem (fun r => digest r.content) l hr1l
    have hl2fil := buildMap_filter _ _ (digest r1.content, l2) hl2
    simp only at hl2fil
    have hr2l2 : r2 ∈ l2 := by
      rw [hl2fil]
      exact List.mem_filter.mpr ⟨hr2l, by simp [hdg]⟩
    have hl2len : 1 < l2.length := one_lt_length_of_two_mem hne hr1l2 hr2l2
    exact ⟨l2, mem_groupPipeline_false.mpr
      ⟨(r1.size, l), (digest r1.content, l2), hl, hllen, hl2, hl2len, rfl⟩,
      hr1l2, hr2l2⟩

/-- A record determines its group: the same record can never appear in
two different groups of one run. -/
theorem groupPipeline_unique {flag : Bool} {recs : List FileInfo}
    {g1 g2 : List FileInfo} {r : FileInfo}
    (hg1 : g1 ∈ groupPipeline flag recs) (hg2 : g2 ∈ groupPipeline flag recs)
    (hr1 : r ∈ g1) (hr2 : r ∈ g2) : g1 = g2 := by
  cases flag with
  | true =>
    rcases mem_groupPipeline_true.mp hg1 with ⟨kv1, hkv1, _, rfl⟩
    rcases mem_groupPipeline_true.mp hg2 with ⟨kv2, hkv2, _, rfl⟩
    have e1 := buildMap_filter _ _ kv1 hkv1
    have e2 := buildMap_filter _ _ kv2 hkv2
    rw [e1] at hr1
    rw [e2] at hr2
    have k1 : r.size = kv1.1 := by simpa using (List.mem_filter.mp hr1).2
    have k2 : r.size = kv2.1 := by simpa using (List.mem_filter.mp hr2).2
    rw [e1, e2, ← k1, ← k2]
  | false =>
    rcases mem_groupPipeline_false.mp hg1 with ⟨kv1, dv1, hkv1, _, hdv1, _, rfl⟩
    rcases mem_groupPipeline_false.mp hg2 with ⟨kv2, dv2, hkv2, _, hdv2, _, rfl⟩
    have e1 := buildMap_filter _ _ dv1 hdv1
    have e2 := buildMap_filter _ _ dv2 hdv2
    have b1 := buildMap_filter _ _ kv1 hkv1
    have b2 := buildMap_filter _ _ kv2 hkv2
    rw [e1] at hr1
    rw [e2] at hr2
    have d1 : digest r.content = dv1.1 := by simpa using (List.mem_filter.mp hr1).2
    have d2 : digest r.content = dv2.1 := by simpa using (List.mem_filter.mp hr2).2
    have hrb1 : r ∈ kv1.2 := (List.mem_filter.mp hr1).1
    have hrb2 : r ∈ kv2.2 := (List.mem_filter.mp hr2).1
    rw [b1] at hrb1
    rw [b2] at hrb2
    have k1 : r.size = kv1.1 := by simpa using (List.mem_filter.mp hrb1).2
    have k2 : r.size = kv2.1 := by simpa using (List.mem_filter.mp hrb2).2
    rw [e1, e2, b1, b2, ← k1, ← k2, ← d1, ← d2]

/-- In hash mode, all members of one group agree on digest and size. -/
theorem groupPipeline_digest_eq {recs : List FileInfo} {g : List FileInfo}
    {r1 r2 : FileInfo} (hg : g ∈ groupPipeline false recs)
    (h1 : r1 ∈ g) (h2 : r2 ∈ g) :
    digest r1.content = digest r2.content ∧ r1.size = r2.size := by
  rcases mem_groupPipeline_false.mp hg with ⟨kv, dv, hkv, _, hdv, _, rfl⟩
  have e := buildMap_filter _ _ dv hdv
  have b := buildMap_filter _ _ kv hkv
  rw [e] at h1 h2
  have d1 : digest r1.content = dv.1 := by simpa using (List.mem_filter.mp h1).2
  have d2 : digest r2.content = dv.1 := by simpa using (List.mem_filter.mp h2).2
  have hb1 : r1 ∈ kv.2 := (List.mem_filter.mp h1).1
  have hb2 : r2 ∈ kv.2 := (List.mem_filter.mp h2).1
  rw [b] at hb1 hb2
  have k1 : r1.size = kv.1 := by simpa using (List.mem_filter.mp hb1).2
  have k2 : r2.size = kv.1 := by simpa using (List.mem_filter.mp hb2).2
  exact ⟨d1.trans d2.symm, k1.trans k2.symm⟩

/-- With at least two zero-length records present, the zero-length
records form exactly one group of the result, in either mode. -/
theorem groupPipeline_zero {flag : Bool} {recs : List FileInfo}
    (hlen : 1 < (recs.filter (fun r => r.size == 0)).length)
    (hc : ∀ r, r ∈ recs → r.size = r.content.length) :
    ∃ g, g ∈ groupPipeline flag recs ∧
      g = recs.filter (fun r => r.size == 0) := by
  set zs := recs.filter (fun r => r.size == 0) with hzs
  have hne : zs ≠ [] := by
    intro hc2
    rw [hc2] at hlen
    simp at hlen
  obtain ⟨r0, hr0⟩ := List.exists_mem_of_ne_nil zs hne
  have hr0recs : r0 ∈ recs := (List.mem_filter.mp hr0).1
  have hr0sz : r0.size = 0 := by simpa using (List.mem_filter.mp hr0).2
  obtain ⟨l, hl, hr0l⟩ := buildMap_mem (fun r => r.size) recs hr0recs
  have hlfil := buildMap_filter _ _ (r0.size, l) hl
  simp only at hlfil
  have hlzs : l = zs := by rw [hlfil, hzs, hr0sz]
  have hllen : 1 < l.length := by rw [hlzs]; exact hlen
  cases flag with
  | true =>
    exact ⟨l, mem_groupPipeline_true.mpr ⟨(r0.size, l), hl, hllen, rfl⟩, hlzs⟩
  | false =>
    have hcontent : ∀ r, r ∈ l → r.content = [] := by
      intro r hrl
      rw [hlzs, hzs] at hrl
      have hsz0 : r.size = 0 := by simpa using (List.mem_filter.mp hrl).2
      have := hc r (List.mem_filter.mp hrl).1
      rw [hsz0] at this
      exact List.eq_nil_of_length_eq_zero this.symm
    obtain ⟨l2, hl2, hr0l2⟩ := buildMap_mem (fun r => digest r.content) l hr0l
    have hl2fil := buildMap_filter _ _ (digest r0.content, l2) hl2
    simp only at hl2fil
    have hl2l : l2 = l := by
      rw [hl2fil]
      apply List.filter_eq_self.mpr
      intro a ha
      simp only [beq_iff_eq]
      rw [hcontent a ha, hcontent r0 hr0l]
    have hl2len : 1 < l2.length := by rw [hl2l]; exact hllen
    exact ⟨l2, mem_groupPipeline_false.mpr
      ⟨(r0.size, l), (digest r0.content, l2), hl, hllen, hl2, hl2len, rfl⟩,
      hl2l.trans hlzs⟩

/-! ### Walker invariants -/

/-- Records produced from one directory's entries carry their content
length as size, and are never empty when `exclude_empty` is set. -/
theorem processEntries_records (opts : DedupOptions) (p : List (List Char)) :
    ∀ (es : List FsNode) (r : FileInfo),
      r ∈ (processEntries opts p es).2 →
      r.size = r.content.length ∧
        (opts.exclude_empty = true → r.size ≠ 0) := by
  intro es
  induction es with
  | nil => intro r h; simp [processEntries] at h
  | cons e rest ih =>
    intro r h
    match e with
    | FsNode.dir nm ok es' =>
      simp only [processEntries] at h
      exact ih r h
    | FsNode.file nm cont =>
      simp only [processEntries] at h
      by_cases hm : ¬ matches_filters nm opts.filters opts.case_sensitive
      · rw [if_pos hm] at h
        exact ih r h
      · rw [if_neg hm] at h
        match cont with
        | none => exact ih r h
        | some bytes =>
          by_cases hz : bytes.length = 0 ∧ opts.exclude_empty
          · simp only [if_pos hz] at h
            exact ih r h
          · simp only [if_neg hz] at h
            rcases List.mem_cons.mp h with h0 | h0
            · subst h0
              refine ⟨rfl, fun hex => ?_⟩
              simp only
              intro hlen
              exact hz ⟨hlen, hex⟩
            · exact ih r h0

/-- Every record of a successful single-pass walk carries its content
length as its size, and is nonempty under `exclude_empty`. -/
theorem walkDedup_records {opts : DedupOptions} :
    ∀ (q : List DTask) (recs : List FileInfo),
      walkDedup opts q = .ok recs → ∀ r, r ∈ recs →
        r.size = r.content.length ∧
          (opts.exclude_empty = true → r.size ≠ 0) := by
  intro q
  induction q using walkDedup.induct opts with
  | case1 =>
    intro recs h r hr
    rw [walkDedup] at h
    injection h with h
    subst h
    simp at hr
  | case2 t rest hok more hrec ih =>
    intro recs h r hr
    rw [walkDedup.eq_def] at h
    simp only [if_pos hok, hrec] at h
    injection h with h
    subst h
    rcases List.mem_append.mp hr with h0 | h0
    · exact processEntries_records opts t.path t.entries r h0
    · exact ih more hrec r h0
  | case3 t rest hok e hrec =>
    intro recs h r hr
    rw [walkDedup.eq_def] at h
    simp only [if_pos hok, hrec] at h
    exact absurd h (by simp)
  | case4 t rest hok =>
    intro recs h r hr
    rw [walkDedup.eq_def] at h
    simp only [if_neg hok] at h
    exact absurd h (by simp)

/-! ### The two traversal error policies -/

/-- Whether a run succeeded. -/
def exceptOk {e1 : Type} {a1 : Type} : Except e1 a1 → Bool
  | .ok _ => true
  | .error _ => false

mutual

/-- A subtree contains an unlistable directory (file nodes never count:
`scan_directory` skips metadata failures silently). -/
def anyBadDir : FsNode → Bool
  | .file _ _ => false
  | .dir _ ok es => !ok || anyBadDirList es

/-- Forest version of `anyBadDir`. -/
def anyBadDirList : List FsNode → Bool
  | [] => false
  | n :: ns => anyBadDir n || anyBadDirList ns

end

mutual

/-- A subtree makes `FileIter` fail: an unlistable directory, or a file
that passes the name filter but whose metadata cannot be read. -/
def anyBadIter (opts : DedupOptions) : FsNode → Bool
  | .file nm cont =>
    matches_filters nm opts.filters opts.case_sensitive && cont.isNone
  | .dir _ ok es => !ok || anyBadIterList opts es

/-- Forest version of `anyBadIter`. -/
def anyBadIterList (opts : DedupOptions) : List FsNode → Bool
  | [] => false
  | n :: ns => anyBadIter opts n || anyBadIterList opts ns

end

/-- A file entry contributes no directory task. -/
theorem processEntries_file_fst (opts : DedupOptions) (p : List (List Char))
    (nm : List Char) (cont : Option (List Nat)) (rest : List FsNode) :
    (processEntries opts p (FsNode.file nm cont :: rest)).1 =
      (processEntries opts p rest).1 := by
  cases cont with
  | none => simp [processEntries]
  | some bytes =>
    simp only [processEntries]
    split_ifs <;> rfl

/-- The queued subdirectory tasks are all good exactly when the entry
forest contains no unlistable directory. -/
theorem processEntries_tasks_good (opts : DedupOptions) (p : List (List Char)) :
    ∀ es : List FsNode,
      (∀ t, t ∈ (processEntries opts p es).1 →
          t.ok = true ∧ anyBadDirList t.entries = false) ↔
        anyBadDirList es = false := by
  intro es
  induction es with
  | nil => simp [processEntries, anyBadDirList]
  | cons e rest ih =>
    match e with
    | FsNode.dir nm ok es' =>
      simp only [processEntries, anyBadDirList, anyBadDir]
      constructor
      · intro h
        have hhead := h ⟨p ++ [nm], ok, es'⟩ (List.mem_cons_self _ _)
        simp only at hhead
        have hrest := ih.mp (fun t ht => h t (List.mem_cons_of_mem _ ht))
        simp [hhead.1, hhead.2, hrest]
      · intro h
        simp only [Bool.or_eq_false_iff] at h
        intro t ht
        rcases List.mem_cons.mp ht with h0 | h0
        · subst h0
          refine ⟨?_, h.1.2⟩
          simpa using h.1.1
        · exact (ih.mpr h.2) t h0
    | FsNode.file nm cont =>
      rw [processEntries_file_fst]
      simp only [anyBadDirList, anyBadDir]
      rw [ih]
      simp

/-- `scan_directory` succeeds exactly when every queued directory and
every directory below it can be listed; unreadable file metadata never
causes failure. -/
theorem walkDedup_ok_iff {opts : DedupOptions} :
    ∀ q : List DTask,
      exceptOk (walkDedup opts q) = true ↔
        ∀ t, t ∈ q → t.ok = true ∧ anyBadDirList t.entries = false := by
  intro q
  induction q using walkDedup.induct opts with
  | case1 =>
    rw [walkDedup]
    simp [exceptOk]
  | case2 t rest hok more hrec ih =>
    rw [walkDedup.eq_def]
    simp only [if_pos hok, hrec]
    rw [hrec] at ih
    constructor
    · intro _ t' ht'
      have hall := ih.mp (by simp [exceptOk])
      rcases List.mem_cons.mp ht' with h0 | h0
      · rw [h0]
        refine ⟨hok, ?_⟩
        rw [← processEntries_tasks_good opts t.path t.entries]
        intro t2 ht2
        exact hall t2 (List.mem_append_right _ ht2)
      · exact hall t' (List.mem_append_left _ h0)
    · intro _
      simp [exceptOk]
  | case3 t rest hok e hrec ih =>
    rw [walkDedup.eq_def]
    simp only [if_pos hok, hrec]
    rw [hrec] at ih
    simp only [exceptOk, Bool.false_eq_true, false_iff]
    intro hcon
    have : ∀ t', t' ∈ rest ++ (processEntries opts t.path t.entries).1 →
        t'.ok = true ∧ anyBadDirList t'.entries = false := by
      intro t' ht'
      rcases List.mem_append.mp ht' with h0 | h0
      · exact hcon t' (List.mem_cons_of_mem _ h0)
      · have hgood := (hcon t (List.mem_cons_self _ _)).2
        exact (processEntries_tasks_good opts t.path t.entries).mpr hgood t' h0
    have := ih.mpr this
    simp [exceptOk] at this
  | case4 t rest hok =>
    rw [walkDedup.eq_def]
    simp only [if_neg hok]
    simp only [exceptOk, Bool.false_eq_true, false_iff]
    intro hcon
    exact hok (hcon t (List.mem_cons_self _ _)).1

/-- When the per-directory iterator loop succeeds, its queued tasks are
all good exactly when the forest holds nothing that makes the stream
fail. -/
theorem processEntriesIter_tasks_good (opts : DedupOptions)
    (p : List (List Char)) :
    ∀ (es : List FsNode) (out : List DTask × List FileInfo),
      processEntriesIter opts p es = .ok out →
      ((∀ t, t ∈ out.1 →
          t.ok = true ∧ anyBadIterList opts t.entries = false) ↔
        anyBadIterList opts es = false) := by
  intro es
  induction es with
  | nil =>
    intro out h
    simp only [processEntriesIter] at h
    injection h with h
    subst h
    simp [anyBadIterList]
  | cons e rest ih =>
    intro out h
    match e with
    | FsNode.dir nm ok es' =>
      simp only [processEntriesIter] at h
      match hrest : processEntriesIter opts p rest with
      | .ok out' =>
        rw [hrest] at h
        injection h with h
        subst h
        simp only [anyBadIterList, anyBadIter]
        constructor
        · intro hall
          have hhead := hall ⟨p ++ [nm], ok, es'⟩ (List.mem_cons_self _ _)
          simp only at hhead
          have hrest2 := (ih out' hrest).mp
            (fun t ht => hall t (List.mem_cons_of_mem _ ht))
          simp [hhead.1, hhead.2, hrest2]
        · intro hgood
          simp only [Bool.or_eq_false_iff] at hgood
          intro t ht
          rcases List.mem_cons.mp ht with h0 | h0
          · rw [h0]
            exact ⟨by simpa using hgood.1.1, hgood.1.2⟩
          · exact (ih out' hrest).mpr hgood.2 t h0
      | .error e' => rw [hrest] at h; exact absurd h (by simp)
    | FsNode.file nm cont =>
      simp only [processEntriesIter] at h
      by_cases hm : ¬ matches_filters nm opts.filters opts.case_sensitive
      · rw [if_pos hm] at h
        simp only [anyBadIterList, anyBadIter,
          Bool.not_eq_true] at hm ⊢
        rw [hm]
        simpa using ih out h
      · rw [if_neg hm] at h
        simp only [Bool.not_eq_true, Bool.not_eq_false] at hm
        match cont with
        | none => exact absurd h (by simp)
        | some bytes =>
          have hbad : anyBadIter opts (FsNode.file nm (some bytes)) = false := by
            simp [anyBadIter]
          by_cases hz : bytes.length = 0 ∧ opts.exclude_empty
          · simp only [if_pos hz] at h
            simp only [anyBadIterList, hbad, Bool.false_or]
            exact ih out h
          · simp only [if_neg hz] at h
            match hrest : processEntriesIter opts p rest with
            | .ok out' =>
              rw [hrest] at h
              injection h with h
              subst h
              simp only [anyBadIterList, hbad, Bool.false_or]
              exact ih out' hrest
            | .error e' => rw [hrest] at h; exact absurd h (by simp)

/-- When the per-directory iterator loop fails, the forest holds a
stream-failing node. -/
theorem processEntriesIter_error (opts : DedupOptions) (p : List (List Char)) :
    ∀ (es : List FsNode) (e : String),
      processEntriesIter opts p es = .error e →
      anyBadIterList opts es = true := by
  intro es
  induction es with
  | nil => intro e h; simp [processEntriesIter] at h
  | cons ent rest ih =>
    intro e h
    match ent with
    | FsNode.dir nm ok es' =>
      simp only [processEntriesIter] at h
      match hrest : processEntriesIter opts p rest with
      | .ok out' => rw [hrest] at h; exact absurd h (by simp)
      | .error e' =>
        rw [hrest] at h
        simp only [anyBadIterList, Bool.or_eq_true]
        exact Or.inr (ih e' hrest)
    | FsNode.file nm cont =>
      simp only [processEntriesIter] at h
      by_cases hm : ¬ matches_filters nm opts.filters opts.case_sensitive
      · rw [if_pos hm] at h
        simp only [anyBadIterList, Bool.or_eq_true]
        exact Or.inr (ih e h)
      · rw [if_neg hm] at h
        simp only [Bool.not_eq_true, Bool.not_eq_false] at hm
        match cont with
        | none =>
          simp [anyBadIterList, anyBadIter, hm]
        | some bytes =>
          have hstep : anyBadIterList opts (FsNode.file nm (some bytes) :: rest) =
              anyBadIterList opts rest := by
            simp [anyBadIterList, anyBadIter]
          rw [hstep]
          by_cases hz : bytes.length = 0 ∧ opts.exclude_empty
          · simp only [if_pos hz] at h
            exact ih e h
          · simp only [if_neg hz] at h
            match hrest : processEntriesIter opts p rest with
            | .ok out' => rw [hrest] at h; exact absurd h (by simp)
            | .error e' =>
              rw [hrest] at h
              exact ih e' hrest

/-- Plain unfolding equation for `walkIter` on a nonempty queue. -/
theorem walkIter_cons_eq (opts : DedupOptions) (t : DTask) (rest : List DTask) :
    walkIter opts (t :: rest) =
      if t.ok then
        match processEntriesIter opts t.path t.entries with
        | .ok out =>
          match walkIter opts (rest ++ out.1) with
          | .ok more => .ok (out.2 ++ more)
          | .error e => .error e
        | .error e => .error e
      else .error "Failed to read directory" := by
  rw [walkIter.eq_def]
  by_cases hok : t.ok = true
  · simp only [if_pos hok]
    rcases hpe : processEntriesIter opts t.path t.entries with e | out
    · rfl
    · rfl
  · simp [if_neg hok]

/-- `FileIter`, drained, succeeds exactly when no queued directory (or
directory below it) is unlistable and no filter-passing file below has
unreadable metadata. -/
theorem walkIter_ok_iff {opts : DedupOptions} :
    ∀ q : List DTask,
      exceptOk (walkIter opts q) = true ↔
        ∀ t, t ∈ q → t.ok = true ∧ anyBadIterList opts t.entries = false := by
  intro q
  induction q using walkIter.induct opts with
  | case1 =>
    rw [walkIter]
    simp [exceptOk]
  | case2 t rest hok out hpe more hrec ih =>
    rw [walkIter_cons_eq]
    simp only [if_pos hok, hpe, hrec]
    rw [hrec] at ih
    constructor
    · intro _ t' ht'
      have hall := ih.mp (by simp [exceptOk])
      rcases List.mem_cons.mp ht' with h0 | h0
      · rw [h0]
        refine ⟨hok, ?_⟩
        rw [← processEntriesIter_tasks_good opts t.path t.entries out hpe]
        intro t2 ht2
        exact hall t2 (List.mem_append_right _ ht2)
      · exact hall t' (List.mem_append_left _ h0)
    · intro _
      simp [exceptOk]
  | case3 t rest hok out hpe e hrec ih =>
    rw [walkIter_cons_eq]
    simp only [if_pos hok, hpe, hrec]
    rw [hrec] at ih
    simp only [exceptOk, Bool.false_eq_true, false_iff]
    intro hcon
    have : ∀ t', t' ∈ rest ++ out.1 →
        t'.ok = true ∧ anyBadIterList opts t'.entries = false := by
      intro t' ht'
      rcases List.mem_append.mp ht' with h0 | h0
      · exact hcon t' (List.mem_cons_of_mem _ h0)
      · have hgood := (hcon t (List.mem_cons_self _ _)).2
        exact (processEntriesIter_tasks_good opts t.path t.entries out hpe).mpr
          hgood t' h0
    have := ih.mpr this
    simp [exceptOk] at this
  | case4 t rest hok e hpe =>
    rw [walkIter_cons_eq]
    simp only [if_pos hok, hpe]
    simp only [exceptOk, Bool.false_eq_true, false_iff]
    intro hcon
    have := (hcon t (List.mem_cons_self _ _)).2
    rw [processEntriesIter_error opts t.path t.entries e hpe] at this
    exact absurd this (by simp)
  | case5 t rest hok =>
    rw [walkIter_cons_eq]
    simp only [if_neg hok]
    simp only [exceptOk, Bool.false_eq_true, false_iff]
    intro hcon
    exact hok (hcon t (List.mem_cons_self _ _)).1

/-! ### Concrete fixtures for witnesses and counterexamples -/

/-- Default options: no filters, keep empty files, case-sensitive,
content hashing enabled. -/
def optsHash : DedupOptions :=
  { filters := [], exclude_empty := false, case_sensitive := true,
    only_compare_file_size := false }

/-- Options with the empty-file exclusion switched on. -/
def optsExcl : DedupOptions :=
  { filters := [], exclude_empty := true, case_sensitive := true,
    only_compare_file_size := false }

/-- Two same-size files whose different contents collide under the
rolling hash: `digest [1, 0] = 31 = digest [0, 31]`. -/
def collideTree : List FsNode :=
  [FsNode.file ['a'] (some [1, 0]), FsNode.file ['b'] (some [0, 31])]

/-- The records the walker produces for `collideTree`. -/
def collideA : FileInfo := ⟨[['a']], 2, [1, 0]⟩

/-- Second record of `collideTree`. -/
def collideB : FileInfo := ⟨[['b']], 2, [0, 31]⟩

/-- Two files with identical one-byte content. -/
def twinTree : List FsNode :=
  [FsNode.file ['a'] (some [7]), FsNode.file ['b'] (some [7])]

/-- First record of `twinTree`. -/
def twinA : FileInfo := ⟨[['a']], 1, [7]⟩

/-- Second record of `twinTree`. -/
def twinB : FileInfo := ⟨[['b']], 1, [7]⟩

/-- Two zero-length files. -/
def emptyTree : List FsNode :=
  [FsNode.file ['e'] (some []), FsNode.file ['f'] (some [])]

/-- A file with unreadable metadata next to a readable one. -/
def metaTree : List FsNode :=
  [FsNode.file ['a'] none, FsNode.file ['b'] (some [7])]

theorem walk_collide :
    walkDedup optsHash [⟨[], true, collideTree⟩] = .ok [collideA, collideB] :=
  walkDedupF_sound 2 rfl

theorem fd_collide :
    find_duplicates optsHash true collideTree = .ok [[collideA, collideB]] := by
  rw [find_duplicates, walk_collide]
  rfl

theorem walk_twin_hash :
    walkDedup optsHash [⟨[], true, twinTree⟩] = .ok [twinA, twinB] :=
  walkDedupF_sound 2 rfl

theorem fd_twin_hash :
    find_duplicates optsHash true twinTree = .ok [[twinA, twinB]] := by
  rw [find_duplicates, walk_twin_hash]
  rfl

theorem walk_twin_excl :
    walkDedup optsExcl [⟨[], true, twinTree⟩] = .ok [twinA, twinB] :=
  walkDedupF_sound 2 rfl

theorem fd_twin_excl :
    find_duplicates optsExcl true twinTree = .ok [[twinA, twinB]] := by
  rw [find_duplicates, walk_twin_excl]
  rfl

theorem walk_empty_tree :
    walkDedup optsHash [⟨[], true, emptyTree⟩] =
      .ok [⟨[['e']], 0, []⟩, ⟨[['f']], 0, []⟩] :=
  walkDedupF_sound 2 rfl

theorem fd_empty_tree :
    find_duplicates optsHash true emptyTree =
      .ok [[⟨[['e']], 0, []⟩, ⟨[['f']], 0, []⟩]] := by
  rw [find_duplicates, walk_empty_tree]
  rfl

/-! ### The claims -/

/-- C1 (counterexample): two files of identical size but different byte
content CAN land in the same `DuplicateGroup` under hash-enabled mode,
because the rolling digest collides: contents `[1, 0]` and `[0, 31]`
both hash to 31, and `find_duplicates` reports them as one group. -/
theorem C1_counterexample :
    find_duplicates optsHash true collideTree = .ok [[collideA, collideB]] ∧
      optsHash.only_compare_file_size = false ∧
      collideA.size = collideB.size ∧
      collideA.content ≠ collideB.content ∧
      collideA ∈ [collideA, collideB] ∧ collideB ∈ [collideA, collideB] :=
  ⟨fd_collide, rfl, rfl, by decide, by simp, by simp⟩

/-- C1 (amended): under hash-enabled mode every reported group is
digest-homogeneous — two files are reported together only when their
content digests (and sizes) agree, so files with different digests never
share a group; equality of byte content is not required, only digest
equality. -/
theorem C1_digest_equal_within_group (opts : DedupOptions) (rootOk : Bool)
    (es : List FsNode) (gs : List (List FileInfo)) (g : List FileInfo)
    (r1 r2 : FileInfo) (hmode : opts.only_compare_file_size = false)
    (hfd : find_duplicates opts rootOk es = .ok gs)
    (hg : g ∈ gs) (h1 : r1 ∈ g) (h2 : r2 ∈ g) :
    digest r1.content = digest r2.content ∧ r1.size = r2.size := by
  rw [find_duplicates] at hfd
  match hwalk : walkDedup opts [⟨[], rootOk, es⟩] with
  | .ok recs =>
    rw [hwalk] at hfd
    injection hfd with hfd
    subst hfd
    rw [hmode] at hg
    exact groupPipeline_digest_eq hg h1 h2
  | .error e =>
    rw [hwalk] at hfd
    exact absurd hfd (by simp)

/-- C1 witness: the amended theorem applied to the twin-file tree. -/
theorem C1_witness :
    digest twinA.content = digest twinB.content ∧ twinA.size = twinB.size :=
  C1_digest_equal_within_group optsHash true twinTree [[twinA, twinB]]
    [twinA, twinB] twinA twinB rfl fd_twin_hash (by simp) (by simp) (by simp)

/-- C2 (counterexample): the matcher does not implement the stated
wildcard semantics on names that contain a literal `'*'`: the name
`*ab` declaratively matches the pattern `*b` (`*` absorbs `*a`), but
`matches_filter` rejects it, because the `'*'` pattern character is
consumed as a literal match against the name's `'*'` without recording
a backtrack checkpoint. -/
theorem C2_counterexample :
    matches_filter ['*', 'a', 'b'] ['*', 'b'] true = false ∧
      GlobMatches true ['*', 'b'] ['*', 'a', 'b'] :=
  ⟨matches_filter_eval 10 (by decide) (by decide),
    GlobMatches.starTake '*' (GlobMatches.starTake 'a' (GlobMatches.starSkip
      (GlobMatches.lit (by decide) (by decide) (by decide) GlobMatches.nil)))⟩

/-- C2 (amended): for every file name that contains no literal `'*'`
character, `matches_filter` decides exactly the stated wildcard
semantics — `?` matches exactly one character, `*` matches zero or
more, no escaping, anchored at both ends — with the empty pattern
accepted unconditionally by the code's shortcut. -/
theorem C2_glob_semantics (cs : Bool) (fileName pattern : List Char)
    (hname : '*' ∉ fileName) :
    matches_filter fileName pattern cs = true ↔
      (pattern = [] ∨ GlobMatches cs pattern fileName) :=
  matches_filter_glob_iff hname

/-- C2 witness: the amended equivalence applied at `a` vs `?`. -/
theorem C2_witness : matches_filter ['a'] ['?'] true = true :=
  (C2_glob_semantics true ['a'] ['?'] (by decide)).mpr
    (Or.inr (GlobMatches.one 'a' GlobMatches.nil))

/-- C3: two distinct files with identical byte content that both
survive the walk (name filters and empty-file policy) always end up in
one common group, and no file ever appears in two different groups of
the same run; this holds in hash mode and in size-only mode alike. -/
theorem C3_identical_content_same_group (opts : DedupOptions)
    (rootOk : Bool) (es : List FsNode) (recs : List FileInfo)
    (gs : List (List FileInfo)) (r1 r2 : FileInfo)
    (hwalk : walkDedup opts [⟨[], rootOk, es⟩] = .ok recs)
    (hfd : find_duplicates opts rootOk es = .ok gs)
    (h1 : r1 ∈ recs) (h2 : r2 ∈ recs)
    (hcontent : r1.content = r2.content) (hne : r1 ≠ r2) :
    (∃ g, g ∈ gs ∧ r1 ∈ g ∧ r2 ∈ g) ∧
      ∀ g1 g2 r, g1 ∈ gs → g2 ∈ gs → r ∈ g1 → r ∈ g2 → g1 = g2 := by
  rw [find_duplicates, hwalk] at hfd
  injection hfd with hfd
  subst hfd
  have hsz : r1.size = r2.size := by
    rw [(walkDedup_records _ recs hwalk r1 h1).1,
      (walkDedup_records _ recs hwalk r2 h2).1, hcontent]
  constructor
  · exact groupPipeline_together h1 h2 hne hsz (by rw [hcontent])
  · intro g1 g2 r hg1 hg2 hr1 hr2
    exact groupPipeline_unique hg1 hg2 hr1 hr2

/-- C3 witness: the twin files are reported together. -/
theorem C3_witness :
    (∃ g, g ∈ [[twinA, twinB]] ∧ twinA ∈ g ∧ twinB ∈ g) ∧
      ∀ g1 g2 r, g1 ∈ [[twinA, twinB]] → g2 ∈ [[twinA, twinB]] →
        r ∈ g1 → r ∈ g2 → g1 = g2 :=
  C3_identical_content_same_group optsHash true twinTree [twinA, twinB]
    [[twinA, twinB]] twinA twinB walk_twin_hash fd_twin_hash
    (by simp) (by simp) rfl (by decide)

/-- C4: every group of a successful `find_duplicates` run has at least
two members; singleton size buckets — and, in hash mode, singleton
digest groups — are discarded before the result is returned. -/
theorem C4_groups_at_least_two (opts : DedupOptions) (rootOk : Bool)
    (es : List FsNode) (gs : List (List FileInfo)) (g : List FileInfo)
    (hfd : find_duplicates opts rootOk es = .ok gs) (hg : g ∈ gs) :
    2 ≤ g.length := by
  rw [find_duplicates] at hfd
  match hwalk : walkDedup opts [⟨[], rootOk, es⟩] with
  | .ok recs =>
    rw [hwalk] at hfd
    injection hfd with hfd
    subst hfd
    exact groupPipeline_length hg
  | .error e =>
    rw [hwalk] at hfd
    exact absurd hfd (by simp)

/-- C4 witness: the twin-file group has two members. -/
theorem C4_witness : 2 ≤ ([twinA, twinB] : List FileInfo).length :=
  C4_groups_at_least_two optsHash true twinTree [[twinA, twinB]]
    [twinA, twinB] fd_twin_hash (by simp)

/-- C5: case sensitivity of the matcher: `matches("A", "a", true)` is
false and `matches("A", "a", false)` is true; in general, on a
single-character name and a single ordinary pattern character, the
matcher returns exactly the `chars_eq` comparison — plain equality when
case-sensitive, ASCII-case-insensitive equality otherwise. -/
theorem C5_case_sensitivity :
    matches_filter ['A'] ['a'] true = false ∧
      matches_filter ['A'] ['a'] false = true ∧
      ∀ (cs : Bool) (c d : Char), d ≠ '*' → d ≠ '?' →
        matches_filter [c] [d] cs = charsEq cs d c := by
  refine ⟨matches_filter_eval 5 (by decide) (by decide),
    matches_filter_eval 5 (by decide) (by decide), ?_⟩
  intro cs c d hd hq
  rw [matches_filter, if_neg ?hne]
  case hne =>
    rintro (h | h)
    · exact absurd h (by simp)
    · injection h with h1 _
      exact hd h1
  rw [matchLoop.eq_def]
  show (if pointRel cs d c = true then matchLoop cs [] [] none [c]
      else if (d == '*') = true then
        matchLoop cs [] [c] (some [d]) [c]
      else false) = charsEq cs d c
  have hpr : pointRel cs d c = charsEq cs d c := by
    simp [pointRel, beq_eq_false_iff_ne.mpr hq]
  rw [hpr]
  by_cases hc : charsEq cs d c = true
  · rw [if_pos hc, hc]
    rw [matchLoop]
    rfl
  · rw [if_neg hc]
    rw [if_neg (by simpa using hd)]
    have : charsEq cs d c = false := by simpa using hc
    rw [this]

/-- C5 witness: the general clause applied at `x` vs `y`. -/
theorem C5_witness : matches_filter ['x'] ['y'] true = charsEq true 'y' 'x' :=
  C5_case_sensitivity.2.2 true 'x' 'y' (by decide) (by decide)

/-- C6: `matches_filters` accepts exactly when the filter list is empty,
contains the literal `"*"`, or some filter matches; and a single empty
filter or the literal `"*"` filter matches every name. -/
theorem C6_matches_filters_spec (fileName : List Char)
    (filters : List (List Char)) (cs : Bool) :
    (matches_filters fileName filters cs = true ↔
      (filters = [] ∨ ['*'] ∈ filters ∨
        ∃ f, f ∈ filters ∧ matches_filter fileName f cs = true)) ∧
      matches_filter fileName [] cs = true ∧
      matches_filter fileName ['*'] cs = true := by
  refine ⟨?_, by rw [matches_filter, if_pos (Or.inl rfl)],
    by rw [matches_filter, if_pos (Or.inr rfl)]⟩
  rw [matches_filters]
  by_cases hshort : filters = [] ∨ filters.contains ['*']
  · rw [if_pos hshort]
    simp only [true_iff]
    rcases hshort with h | h
    · exact Or.inl h
    · exact Or.inr (Or.inl (by simpa using h))
  · rw [if_neg hshort]
    rw [List.any_eq_true]
    push_neg at hshort
    constructor
    · rintro ⟨f, hf, hm⟩
      exact Or.inr (Or.inr ⟨f, hf, hm⟩)
    · rintro (h | h | ⟨f, hf, hm⟩)
      · exact absurd h hshort.1
      · exact absurd (by simpa using h : filters.contains ['*'] = true) hshort.2
      · exact ⟨f, hf, hm⟩

/-- C6 witness: the specification applied at a concrete name and the
empty filter. -/
theorem C6_witness : matches_filter ['z'] [] true = true :=
  (C6_matches_filters_spec ['z'] [] true).2.1

/-- C7 (counterexample): a nonempty pattern of only `'*'` characters
does not match every name: the name `**ab` is rejected by the pattern
`**`, because both stars are consumed as literal matches against the
name's leading `'*'` characters. -/
theorem C7_counterexample :
    matches_filter ['*', '*', 'a', 'b'] ['*', '*'] true = false ∧
      (['*', '*'] : List Char) ≠ [] ∧
      (['*', '*'] : List Char).all (fun f => f == '*') = true :=
  ⟨matches_filter_eval 10 (by decide) (by decide), by decide, by decide⟩

/-- C7 (amended): for every file name free of literal `'*'` characters,
every nonempty pattern consisting only of `'*'` matches, with either
case flag (and the single pattern `"*"` matches every name through the
code's shortcut). -/
theorem C7_all_star_pattern (cs : Bool) (fileName p : List Char)
    (hne : p ≠ []) (hall : p.all (fun f => f == '*') = true)
    (hname : '*' ∉ fileName) :
    matches_filter fileName p cs = true := by
  by_cases hshort : p = [] ∨ p = ['*']
  · rw [matches_filter, if_pos hshort]
  · rw [matches_filter, if_neg hshort]
    exact matchLoop_complete p fileName none fileName hname hname
      (fun sf h => nomatch h) (Or.inl (globB_allStar hne hall fileName))

/-- C7 witness: `x` matches `**`. -/
theorem C7_witness : matches_filter ['x'] ['*', '*'] true = true :=
  C7_all_star_pattern true ['x'] ['*', '*'] (by decide) (by decide) (by decide)

/-- C8: the empty-file policy: with `exclude_empty` set, no group of a
successful run contains a zero-length file; with it unset, whenever at
least two zero-length files survive the walk, the zero-length records
form exactly one group of the result. -/
theorem C8_empty_file_policy :
    (∀ (opts : DedupOptions) (rootOk : Bool) (es : List FsNode)
        (gs : List (List FileInfo)) (g : List FileInfo) (r : FileInfo),
      opts.exclude_empty = true → find_duplicates opts rootOk es = .ok gs →
      g ∈ gs → r ∈ g → r.size ≠ 0) ∧
    (∀ (opts : DedupOptions) (rootOk : Bool) (es : List FsNode)
        (recs : List FileInfo) (gs : List (List FileInfo)),
      opts.exclude_empty = false →
      walkDedup opts [⟨[], rootOk, es⟩] = .ok recs →
      find_duplicates opts rootOk es = .ok gs →
      1 < (recs.filter (fun r => r.size == 0)).length →
      ∃ g, g ∈ gs ∧ g = recs.filter (fun r => r.size == 0)) := by
  constructor
  · intro opts rootOk es gs g r hex hfd hg hr
    rw [find_duplicates] at hfd
    match hwalk : walkDedup opts [⟨[], rootOk, es⟩] with
    | .ok recs =>
      rw [hwalk] at hfd
      injection hfd with hfd
      subst hfd
      have hrecs : r ∈ recs := groupPipeline_sub hg hr
      exact (walkDedup_records _ recs hwalk r hrecs).2 hex
    | .error e =>
      rw [hwalk] at hfd
      exact absurd hfd (by simp)
  · intro opts rootOk es recs gs _ hwalk hfd hlen
    rw [find_duplicates, hwalk] at hfd
    injection hfd with hfd
    subst hfd
    exact groupPipeline_zero hlen
      (fun r hr => (walkDedup_records _ recs hwalk r hr).1)

/-- C8 witness: both clauses applied to concrete trees: the twin files
under `exclude_empty` are nonempty, and the two zero-length files form
one group. -/
theorem C8_witness :
    twinA.size ≠ 0 ∧
      ∃ g, g ∈ [[(⟨[['e']], 0, []⟩ : FileInfo), ⟨[['f']], 0, []⟩]] ∧
        g = ([⟨[['e']], 0, []⟩, ⟨[['f']], 0, []⟩] :
            List FileInfo).filter (fun r => r.size == 0) :=
  ⟨C8_empty_file_policy.1 optsExcl true twinTree [[twinA, twinB]]
      [twinA, twinB] twinA rfl fd_twin_excl (by simp) (by simp),
    C8_empty_file_policy.2 optsHash true emptyTree
      [⟨[['e']], 0, []⟩, ⟨[['f']], 0, []⟩]
      [[⟨[['e']], 0, []⟩, ⟨[['f']], 0, []⟩]] rfl walk_empty_tree
      fd_empty_tree (by decide)⟩

/-- C9: the two traversal error policies: `scan_directory` (used by
`find_duplicates`) fails exactly when some directory of the queue or
below cannot be listed — a file with unreadable metadata never makes it
fail and never yields a record — while the drained `FileIter` stream
fails exactly when some directory cannot be listed or some
filter-passing file has unreadable metadata.  Concretely, on a tree
with one unreadable-metadata file and one readable file, the single-pass
walker succeeds and omits the bad file, while the iterator reports the
metadata error. -/
theorem C9_error_policies :
    (∀ (opts : DedupOptions) (q : List DTask),
      exceptOk (walkDedup opts q) = true ↔
        ∀ t, t ∈ q → t.ok = true ∧ anyBadDirList t.entries = false) ∧
    (∀ (opts : DedupOptions) (q : List DTask),
      exceptOk (walkIter opts q) = true ↔
        ∀ t, t ∈ q → t.ok = true ∧ anyBadIterList opts t.entries = false) ∧
    walkDedup optsHash [⟨[], true, metaTree⟩] = .ok [⟨[['b']], 1, [7]⟩] ∧
    walkIter optsHash [⟨[], true, metaTree⟩] = .error "Failed to get metadata" :=
  ⟨fun opts q => walkDedup_ok_iff q, fun opts q => walkIter_ok_iff q,
    walkDedupF_sound 2 rfl, walkIterF_sound 2 rfl⟩

/-- C9 witness: the dedup-policy characterization applied to the empty
queue. -/
theorem C9_witness : exceptOk (walkDedup optsHash []) = true :=
  (C9_error_policies.1 optsHash []).mpr (by simp)

/-- C10: the backtracking matcher loop terminates on every input: for
every name, pattern and checkpoint state there is a finite fuel bound
under which the step-counting mirror finishes and returns the loop's
boolean answer. -/
theorem C10_matcher_terminates (cs : Bool) (filt fileName : List Char)
    (starF : Option (List Char)) (starN : List Char) :
    ∃ (fuel : Nat) (b : Bool),
      matchLoopF cs fuel filt fileName starF starN = some b ∧
        matchLoop cs filt fileName starF starN = b := by
  induction filt, fileName, starF, starN using matchLoop.induct cs with
  | case1 filt starF starN =>
    refine ⟨1, filt.all (fun f => f == '*'), rfl, ?_⟩
    rw [matchLoop]
  | case2 starF starN c nt f ft h1 ih =>
    obtain ⟨fuel, b, hF, hL⟩ := ih
    refine ⟨fuel + 1, b, ?_, ?_⟩
    · simp only [matchLoopF, if_pos h1]
      exact hF
    · rw [matchLoop.eq_def]
      simp only [if_pos h1]
      exact hL
  | case3 starF starN c nt f ft h1 h2 ih =>
    obtain ⟨fuel, b, hF, hL⟩ := ih
    refine ⟨fuel + 1, b, ?_, ?_⟩
    · simp only [matchLoopF, if_neg h1, if_pos h2]
      exact hF
    · rw [matchLoop.eq_def]
      simp only [if_neg h1, if_pos h2]
      exact hL
  | case4 starN c nt f ft h1 h2 sf ih =>
    obtain ⟨fuel, b, hF, hL⟩ := ih
    refine ⟨fuel + 1, b, ?_, ?_⟩
    · simp only [matchLoopF, if_neg h1, if_neg h2]
      exact hF
    · rw [matchLoop.eq_def]
      simp only [if_neg h1, if_neg h2]
      exact hL
  | case5 starN c nt f ft h1 h2 =>
    refine ⟨1, false, ?_, ?_⟩
    · simp only [matchLoopF, if_neg h1, if_neg h2]
    · rw [matchLoop.eq_def]
      simp only [if_neg h1, if_neg h2]
  | case6 starN c nt sf ih =>
    obtain ⟨fuel, b, hF, hL⟩ := ih
    refine ⟨fuel + 1, b, ?_, ?_⟩
    · simp only [matchLoopF]
      exact hF
    · rw [matchLoop.eq_def]
      exact hL
  | case7 starN c nt =>
    refine ⟨1, false, ?_, ?_⟩
    · simp only [matchLoopF]
    · rw [matchLoop.eq_def]

end FileDedup
